import Mathlib

/-!
# Verification of the seam-carving engine (`slimming.c`)

A shallow embedding of the seam-carving ("image slimming") engine of
`src/code/slimming.c` and proofs about it.

Modelling conventions:

* C `float` values in this program are always sums of integer quantities
  (`abs(int - int) / 2` in C is truncating integer division, and every table
  cell is a sum of such energies), so all numeric values are embedded as `ℤ`
  and every comparison in the source coincides with the `ℤ` comparison.
* `size_t` subtraction can wrap around; wherever the source computes `x - 1`
  on a `size_t` value that can legitimately be `0`, the embedding uses
  `pred64`, which maps `0` to `2^64 - 1` (an index that is always out of
  range for any array in the program).
* Memory reads through a table pointer are modelled with `List.get?`; a read
  that C would perform out of the allocated bounds yields `none`, and the
  enclosing operation yields `none`.  Reads performed by `color_value` are
  *not* modelled this way because the C function itself bounds-checks its
  indices and returns the error codes `-3` / `-4` instead of reading memory.
* `FLT_MAX` in the last-row scan of `find_optimal_groove` strictly dominates
  every value the program can store in a table, so the scan is embedded as a
  "first strict minimum" fold seeded with the first element.
-/

/-- RGB pixel, mirroring `PNMPixel` (channels are 8-bit values stored as
integers; the algorithm manipulates them through `int`-returning
`color_value`, so channels are embedded as `ℤ`). -/
structure Pixel where
  red : ℤ
  green : ℤ
  blue : ℤ
deriving DecidableEq

/-- `PNMImage`: width, height, and a row-major flat pixel buffer. -/
structure PNMImage where
  width : ℕ
  height : ℕ
  data : List Pixel
deriving DecidableEq

/-- The three color channels (`colorChannel` enum in the source). -/
inductive ColorChannel where
  | red
  | green
  | blue
deriving DecidableEq

/-- `x - 1` on a 64-bit `size_t`: wraps to `2^64 - 1` when `x = 0`.  The
wrapped value is out of range for every row and column index a table or an
image in this program can have. -/
def pred64 (n : ℕ) : ℕ :=
  if n = 0 then 2 ^ 64 - 1 else n - 1

/-- `color_value` (slimming.c:552): bounds-checks `i` and `j` and returns the
error codes `-3` / `-4` on failure, otherwise reads the channel of pixel
`(i, j)` from the flat buffer at `i * width + j`. -/
def color_value (image : PNMImage) (i j : ℕ) (channel : ColorChannel) : ℤ :=
  if i ≥ image.height then -3
  else if j ≥ image.width then -4
  else
    let p := image.data.getD (i * image.width + j) ⟨0, 0, 0⟩
    match channel with
    | ColorChannel.red => p.red
    | ColorChannel.green => p.green
    | ColorChannel.blue => p.blue

/-- `abs(a - b) / 2` in C on `int` arguments: the numerator is non-negative,
so truncating division is division of the natural number `|a - b|` by 2. -/
def halfAbsDiff (a b : ℤ) : ℤ :=
  ((a - b).natAbs / 2 : ℕ)

/-- `color_energy` (slimming.c:484): the per-channel energy, with the source's
9-way explicit case split (4 corners, 4 edges, interior), in the source's
order of tests.  Where the source computes `i - 1` / `j - 1` on `size_t`
values, `pred64` models the wrap-around (the resulting huge index makes
`color_value` return its `-3` / `-4` error code, exactly as in C). -/
def color_energy (image : PNMImage) (i j : ℕ) (channel : ColorChannel) : ℤ :=
  if i ≥ image.height then -3
  else if j ≥ image.width then -4
  else
    let cv := fun a b => color_value image a b channel
    if i = image.height - 1 ∧ j = image.width - 1 then -- bottom right corner
      halfAbsDiff (cv (pred64 i) j) (cv i j) + halfAbsDiff (cv i (pred64 j)) (cv i j)
    else if i = 0 ∧ j = 0 then -- top left corner
      halfAbsDiff (cv i j) (cv (i + 1) j) + halfAbsDiff (cv i j) (cv i (j + 1))
    else if i = 0 ∧ j = image.width - 1 then -- top right corner
      halfAbsDiff (cv i j) (cv (i + 1) j) + halfAbsDiff (cv i (pred64 j)) (cv i j)
    else if i = image.height - 1 ∧ j = 0 then -- bottom left corner
      halfAbsDiff (cv (pred64 i) j) (cv i j) + halfAbsDiff (cv i j) (cv i (j + 1))
    else if i = 0 ∧ j < image.width - 1 ∧ 0 < j then -- top edge
      halfAbsDiff (cv i j) (cv (i + 1) j) + halfAbsDiff (cv i (pred64 j)) (cv i (j + 1))
    else if i = image.height - 1 ∧ j < image.width - 1 ∧ 0 < j then -- bottom edge
      halfAbsDiff (cv (pred64 i) j) (cv i j) + halfAbsDiff (cv i (pred64 j)) (cv i (j + 1))
    else if j = 0 ∧ i < image.height - 1 ∧ 0 < i then -- left edge
      halfAbsDiff (cv (pred64 i) j) (cv (i + 1) j) + halfAbsDiff (cv i j) (cv i (j + 1))
    else if j = image.width - 1 ∧ i < image.height - 1 ∧ 0 < i then -- right edge
      halfAbsDiff (cv (pred64 i) j) (cv (i + 1) j) + halfAbsDiff (cv i (pred64 j)) (cv i j)
    else -- interior
      halfAbsDiff (cv (pred64 i) j) (cv (i + 1) j) + halfAbsDiff (cv i (pred64 j)) (cv i (j + 1))

/-- `pixel_energy` (slimming.c:459): bounds checks, then the sum of the three
channel energies. -/
def pixel_energy (image : PNMImage) (i j : ℕ) : ℤ :=
  if i ≥ image.height then -3
  else if j ≥ image.width then -4
  else
    color_energy image i j ColorChannel.red + color_energy image i j ColorChannel.green +
      color_energy image i j ColorChannel.blue

/-- `min_with_two_arguments` (slimming.c:590). -/
def min_with_two_arguments (a b : ℤ) : ℤ :=
  if a < b then a else b

/-- `min_with_three_arguments` (slimming.c:597). -/
def min_with_three_arguments (a b c : ℤ) : ℤ :=
  if a < b ∧ a < c then a
  else if b < c then b
  else c

/-- A quick sanity example: a valid flat image is well-typed. -/
example : color_value ⟨1, 1, [⟨5, 6, 7⟩]⟩ 0 0 ColorChannel.green = 6 := by decide

example : pixel_energy ⟨1, 1, [⟨0, 0, 0⟩]⟩ 0 0 = 9 := by decide

example : pixel_energy ⟨2, 2, [⟨5, 5, 5⟩, ⟨5, 5, 5⟩, ⟨5, 5, 5⟩, ⟨5, 5, 5⟩]⟩ 0 1 = 0 := by
  decide

/-- `CostTable` (slimming.c:13): logical height/width plus the row storage.
Rows may be physically longer than `width` after an update, mirroring the C
arrays that keep their allocation while `width` shrinks. -/
structure CostTable where
  height : ℕ
  width : ℕ
  table : List (List ℤ)
deriving DecidableEq

/-- Raw read `table[i][j]`: `none` models an access outside the allocated
storage (undefined behavior in C). -/
def CostTable.read (t : CostTable) (i j : ℕ) : Option ℤ :=
  (t.table.get? i).bind fun row => row.get? j

/-- Sequence a list of optional cells into an optional row, failing if any
cell's computation performed an out-of-bounds access. -/
def optMap (f : ℕ → Option ℤ) : List ℕ → Option (List ℤ)
  | [] => some []
  | a :: as =>
    (f a).bind fun b => (optMap f as).bind fun bs => some (b :: bs)

/-- Cell `j` of row 0 of the cost table (slimming.c:331): the pixel energy,
rejected (build returns NULL) if it is negative. -/
def buildRow0Cell (image : PNMImage) (j : ℕ) : Option ℤ :=
  let e := pixel_energy image 0 j
  if e < 0 then none else some e

/-- Row 0 of the cost table. -/
def buildRow0 (image : PNMImage) : Option (List ℤ) :=
  optMap (buildRow0Cell image) (List.range image.width)

/-- Cell `j` of row `i ≥ 1` of the cost table (slimming.c:344-362): column 0
uses the two-candidate left-edge recurrence reading `prev[0]`, `prev[1]`;
column `width-1` the right-edge recurrence reading `prev[width-1]`,
`prev[width-2]`; interior columns the three-candidate recurrence.  All reads
of the previous row are bounds-checked (`none` = out-of-bounds in C). -/
def buildRowCell (image : PNMImage) (prev : List ℤ) (i j : ℕ) : Option ℤ :=
  let w := image.width
  if j = 0 then
    (prev.get? 0).bind fun a => (prev.get? 1).bind fun b =>
      some (pixel_energy image i 0 + min_with_two_arguments a b)
  else if j = w - 1 then
    (prev.get? (w - 1)).bind fun a => (prev.get? (w - 2)).bind fun b =>
      some (pixel_energy image i (w - 1) + min_with_two_arguments a b)
  else
    (prev.get? j).bind fun a => (prev.get? (j + 1)).bind fun b =>
      (prev.get? (j - 1)).bind fun c =>
        some (pixel_energy image i j + min_with_three_arguments a b c)

/-- One full row `i ≥ 1` of the cost table. -/
def buildRow (image : PNMImage) (prev : List ℤ) (i : ℕ) : Option (List ℤ) :=
  optMap (buildRowCell image prev i) (List.range image.width)

/-- Rows `i, i+1, …` of the cost table (`n` rows), each computed from the
previous one. -/
def buildRowsFrom (image : PNMImage) : List ℤ → ℕ → ℕ → Option (List (List ℤ))
  | _, _, 0 => some []
  | prev, i, n + 1 =>
    (buildRow image prev i).bind fun r =>
      (buildRowsFrom image r (i + 1) n).bind fun rs => some (r :: rs)

/-- `compute_cost_table` (slimming.c:289): row 0 is the energies of row 0 of
the image; rows `1 … height-1` follow the dynamic-programming recurrence. -/
def compute_cost_table (image : PNMImage) : Option CostTable :=
  (buildRow0 image).bind fun r0 =>
    (buildRowsFrom image r0 1 (image.height - 1)).bind fun rs =>
      some ⟨image.height, image.width, r0 :: rs⟩

/-- `PixelCoordinates` (slimming.c:19). -/
structure PixelCoordinates where
  line : ℕ
  column : ℕ
deriving DecidableEq

/-- `Groove` (slimming.c:25): the seam path (one entry per row) and its cost. -/
structure Groove where
  path : List PixelCoordinates
  cost : ℤ
deriving DecidableEq

/-- The last-row scan of `find_optimal_groove` (slimming.c:730-739): starting
from `min = FLT_MAX`, keep the first strictly smaller value.  Every value the
program stores is far below `FLT_MAX`, so the first element always replaces
the seed; an empty scan leaves the position at `-1` (undefined use in C),
modelled as `none`. -/
def scanMinAux : List ℤ → ℕ → ℕ × ℤ → ℕ × ℤ
  | [], _, acc => acc
  | v :: rest, i, (p, m) => if v < m then scanMinAux rest (i + 1) (i, v) else scanMinAux rest (i + 1) (p, m)

/-- First (lowest-index) minimum of a list together with its value. -/
def argminFirst : List ℤ → Option (ℕ × ℤ)
  | [] => none
  | v :: rest => some (scanMinAux rest 1 (0, v))

/-- `find_optimal_pixel` (slimming.c:637): given the chosen column
`currentRow` at `currentLine`, pick the predecessor column in row
`currentLine - 1`.  Returns the chosen column (the returned line is always
`currentLine - 1`).  The `currentLine = 0` sentinel branch of the source is
modelled as `none` (it is never reached from `find_optimal_groove`). -/
def find_optimal_pixel (t : CostTable) (currentLine currentRow : ℕ) : Option ℕ :=
  if currentLine = 0 then none
  else if currentRow = 0 then
    (t.read (currentLine - 1) currentRow).bind fun a =>
      (t.read (currentLine - 1) (currentRow + 1)).bind fun b =>
        some (if a < b then currentRow else currentRow + 1)
  else if currentRow = t.width - 1 then
    (t.read (currentLine - 1) currentRow).bind fun a =>
      (t.read (currentLine - 1) (currentRow - 1)).bind fun b =>
        some (if a < b then currentRow else currentRow - 1)
  else
    (t.read (currentLine - 1) (currentRow - 1)).bind fun a =>
      (t.read (currentLine - 1) currentRow).bind fun b =>
        (t.read (currentLine - 1) (currentRow + 1)).bind fun c =>
          some (if a < b ∧ b < c then currentRow - 1
                else if b < c then currentRow
                else currentRow + 1)

/-- The backtracking loop of `find_optimal_groove` (slimming.c:747-759):
starting from column `c` at row `r`, walk up to row 0, producing the path
entries for rows `0 … r` in increasing row order. -/
def backtrack (t : CostTable) : ℕ → ℕ → Option (List PixelCoordinates)
  | 0, c => some [⟨0, c⟩]
  | r + 1, c =>
    (find_optimal_pixel t (r + 1) c).bind fun col =>
      (backtrack t r col).bind fun rest => some (rest ++ [⟨r + 1, c⟩])

/-- `find_optimal_groove` (slimming.c:699): scan the last row (`height - 1`,
with `size_t` wrap-around when the height is 0) for its first minimum, then
backtrack upward; the groove's cost is the last-row minimum. -/
def find_optimal_groove (t : CostTable) : Option Groove :=
  (t.table.get? (pred64 t.height)).bind fun lastRow =>
    (argminFirst (lastRow.take t.width)).bind fun pm =>
      (backtrack t (t.height - 1) pm.1).bind fun path => some ⟨path, pm.2⟩

example :
    compute_cost_table ⟨3, 2, [⟨10,0,0⟩, ⟨7,0,0⟩, ⟨12,0,0⟩, ⟨9,0,0⟩, ⟨1,0,0⟩, ⟨10,0,0⟩]⟩ =
      some ⟨2, 3, [[1, 4, 3], [5, 4, 8]]⟩ := by decide

example :
    find_optimal_groove ⟨2, 3, [[1, 4, 3], [5, 4, 8]]⟩ =
      some ⟨[⟨0, 2⟩, ⟨1, 1⟩], 4⟩ := by decide

/-- Result of a C function returning an `int` status: `ok` with the mutated
image, `err code` with the function's error return value, or `oob` when the
function performed an out-of-bounds memory access (undefined behavior). -/
inductive CResult (α : Type) where
  | ok (a : α)
  | err (code : ℤ)
  | oob
deriving DecidableEq

/-- `shift_left` (slimming.c:785): shift `data[i] = data[i+1]` for
`i ∈ [position, width*height - 1)`, where `width*height - 1` is computed on
`size_t` (wrapping to `2^64 - 1` when the image area is 0).  If the loop body
executes with indices beyond the buffer, that is an out-of-bounds access
(`none`). -/
def shift_left (image : PNMImage) (position : ℕ) : Option PNMImage :=
  let bound := pred64 (image.width * image.height)
  if position ≥ bound then some image
  else if bound < image.data.length then
    some { image with
      data := (List.range image.data.length).map fun i =>
        if position ≤ i ∧ i < bound then image.data.getD (i + 1) ⟨0, 0, 0⟩
        else image.data.getD i ⟨0, 0, 0⟩ }
  else none

/-- The per-row loop of `remove_groove_image` (slimming.c:817-826): for each
row `r`, remove the pixel at flat index `path[r].line * width + path[r].column`
(the width here is the already-decremented one).  Reading a path entry beyond
the groove's array is out-of-bounds. -/
def removeLoop (g : Groove) : ℕ → ℕ → PNMImage → CResult PNMImage
  | _, 0, image => .ok image
  | r, n + 1, image =>
    match g.path.get? r with
    | none => .oob
    | some p =>
      match shift_left image (p.line * image.width + p.column) with
      | none => .oob
      | some image' => removeLoop g (r + 1) n image'

/-- `remove_groove_image` (slimming.c:797): reject a zero-width image with
error `-6`, otherwise decrement the width *first* and then run one
`shift_left` per row. -/
def remove_groove_image (image : PNMImage) (g : Groove) : CResult PNMImage :=
  if image.width = 0 then .err (-6)
  else
    let image1 : PNMImage := { image with width := image.width - 1 }
    removeLoop g 0 image1.height image1

/-- One row of phase 1 of `update_cost_table` (slimming.c:861-863): shift the
row's entries left by one from `start` up to the *old* table width `w`; the
row keeps its physical length (the C array keeps its allocation). -/
def shiftRowLeft (w : ℕ) (row : List ℤ) (start : ℕ) : List ℤ :=
  (List.range row.length).map fun j =>
    if start ≤ j ∧ j < w - 1 then row.getD (j + 1) 0 else row.getD j 0

/-- The row loop of phase 1 (`n` rows starting at row `i`, driven by the
table's height as in the C loop); reading a table row or a path entry that
does not exist is out-of-bounds. -/
def shiftRows (t : CostTable) (g : Groove) : ℕ → ℕ → Option (List (List ℤ))
  | _, 0 => some []
  | i, n + 1 =>
    (t.table.get? i).bind fun row =>
      (g.path.get? i).bind fun p =>
        (shiftRows t g (i + 1) n).bind fun rest =>
          some (shiftRowLeft t.width row p.column :: rest)

/-- Phase 1 of `update_cost_table` (slimming.c:860-866): shift every table row
left by one starting at the seam's column for that row (using the *old* table
width as the bound), then decrement the table width. -/
def shiftPhase (t : CostTable) (g : Groove) : Option CostTable :=
  (shiftRows t g 0 t.height).bind fun rows => some ⟨t.height, t.width - 1, rows⟩

/-- The final value of cell `j` of recomputed row `i ≥ 1` in phase 2 of
`update_cost_table` (slimming.c:878-895).  The C loop writes the left-edge
formula to column 0, then the interior formula to columns
`[path[i].column, width-1)`, then the right-edge formula to column `width-1`
(`width` is the post-removal image width); later writes overwrite earlier
ones, and every other column keeps its shifted value.  When `path[i].column`
is 0 the interior formula reads `prev[j - 1]` with `j = 0`, a `size_t`
wrap-around and hence an out-of-bounds read; `prev.get? (pred64 0)` is `none`
exactly then. -/
def updateRowCell (image : PNMImage) (prev shifted : List ℤ) (i startCol j : ℕ) :
    Option ℤ :=
  let w := image.width
  if j = w - 1 then
    (prev.get? (w - 1)).bind fun a =>
      (prev.get? (pred64 (pred64 w))).bind fun b =>
        some (pixel_energy image i (w - 1) + min_with_two_arguments a b)
  else if startCol ≤ j ∧ j < w - 1 then
    (prev.get? j).bind fun a =>
      (prev.get? (j + 1)).bind fun b =>
        (prev.get? (pred64 j)).bind fun c =>
          some (pixel_energy image i j + min_with_three_arguments a b c)
  else if j = 0 then
    (prev.get? 0).bind fun a =>
      (prev.get? 1).bind fun b =>
        some (pixel_energy image i 0 + min_with_two_arguments a b)
  else
    some (shifted.getD j 0)

/-- Recomputed row `i ≥ 1` of the updated cost table; the row keeps the
physical length of its shifted version. -/
def updateRow (image : PNMImage) (prev shifted : List ℤ) (i startCol : ℕ) :
    Option (List ℤ) :=
  optMap (updateRowCell image prev shifted i startCol) (List.range shifted.length)

/-- Cell `j` of recomputed row 0 (slimming.c:869-876): columns
`[path[0].column, width)` are refilled with row-0 pixel energies (with the
negative-energy guard); other columns keep their shifted values. -/
def updateRow0Cell (image : PNMImage) (shifted : List ℤ) (startCol j : ℕ) : Option ℤ :=
  if startCol ≤ j ∧ j < image.width then
    let e := pixel_energy image 0 j
    if e < 0 then none else some e
  else
    some (shifted.getD j 0)

/-- Recomputed row 0 of the updated cost table. -/
def updateRow0 (image : PNMImage) (shifted : List ℤ) (startCol : ℕ) : Option (List ℤ) :=
  optMap (updateRow0Cell image shifted startCol) (List.range shifted.length)

/-- Phase 2's loop over rows `1 … image.height - 1` (`n` rows starting at row
`i`), each recomputed from the already-updated previous row and its own
shifted row. -/
def updateRowsFrom (image : PNMImage) (g : Groove) :
    List ℤ → List (List ℤ) → ℕ → ℕ → Option (List (List ℤ))
  | _, _, _, 0 => some []
  | prev, shiftedRows, i, n + 1 =>
    (shiftedRows.get? i).bind fun shifted =>
      (g.path.get? i).bind fun p =>
        (updateRow image prev shifted i p.column).bind fun r =>
          (updateRowsFrom image g r shiftedRows (i + 1) n).bind fun rs =>
            some (r :: rs)

/-- `update_cost_table` (slimming.c:853): shift phase, width decrement, then
cone recomputation of row 0 and rows `1 … height - 1`. -/
def update_cost_table (image : PNMImage) (t : CostTable) (g : Groove) :
    Option CostTable :=
  (shiftPhase t g).bind fun st =>
    (st.table.get? 0).bind fun shifted0 =>
      (g.path.get? 0).bind fun p0 =>
        (updateRow0 image shifted0 p0.column).bind fun r0 =>
          (updateRowsFrom image g r0 st.table 1 (image.height - 1)).bind fun rs =>
            some ⟨st.height, st.width, r0 :: rs⟩

/-- The k-iteration loop of `reduceImageWidth` (slimming.c:933-970): find the
optimal groove, remove it from the image, update the table.  Any component
failure (NULL return / negative status, and any out-of-bounds access) aborts
with `none`. -/
def reduceLoop : ℕ → PNMImage → CostTable → Option PNMImage
  | 0, image, _ => some image
  | n + 1, image, t =>
    (find_optimal_groove t).bind fun g =>
      match remove_groove_image image g with
      | .ok image' =>
        (update_cost_table image' t g).bind fun t' => reduceLoop n image' t'
      | _ => none

/-- `reduceImageWidth` (slimming.c:900): copy the input image (the copy has
identical contents, so it is modelled by the image itself), build the cost
table once, then loop `k` times. -/
def reduceImageWidth (image : PNMImage) (k : ℕ) : Option PNMImage :=
  (compute_cost_table image).bind fun t => reduceLoop k image t

-- Pipeline sanity examples on the concrete 4×2 image used later (values match
-- a hand-run of the C code).
example :
    compute_cost_table ⟨4, 2, [⟨35,0,0⟩, ⟨23,0,0⟩, ⟨10,0,0⟩, ⟨29,0,0⟩,
                               ⟨38,0,0⟩, ⟨5,0,0⟩, ⟨7,0,0⟩, ⟨38,0,0⟩]⟩ =
      some ⟨2, 4, [[7, 21, 4, 13], [24, 28, 21, 23]]⟩ := by decide

example :
    find_optimal_groove ⟨2, 4, [[7, 21, 4, 13], [24, 28, 21, 23]]⟩ =
      some ⟨[⟨0, 2⟩, ⟨1, 2⟩], 21⟩ := by decide

example :
    remove_groove_image
        ⟨4, 2, [⟨35,0,0⟩, ⟨23,0,0⟩, ⟨10,0,0⟩, ⟨29,0,0⟩,
                ⟨38,0,0⟩, ⟨5,0,0⟩, ⟨7,0,0⟩, ⟨38,0,0⟩]⟩
        ⟨[⟨0, 2⟩, ⟨1, 2⟩], 21⟩ =
      .ok ⟨3, 2, [⟨35,0,0⟩, ⟨23,0,0⟩, ⟨29,0,0⟩, ⟨38,0,0⟩,
                  ⟨5,0,0⟩, ⟨5,0,0⟩, ⟨7,0,0⟩, ⟨38,0,0⟩]⟩ := by decide

example :
    update_cost_table
        ⟨3, 2, [⟨35,0,0⟩, ⟨23,0,0⟩, ⟨29,0,0⟩, ⟨38,0,0⟩,
                ⟨5,0,0⟩, ⟨5,0,0⟩, ⟨7,0,0⟩, ⟨38,0,0⟩]⟩
        ⟨2, 4, [[7, 21, 4, 13], [24, 28, 21, 23]]⟩
        ⟨[⟨0, 2⟩, ⟨1, 2⟩], 21⟩ =
      some ⟨2, 3, [[7, 21, 15, 13], [24, 28, 27, 23]]⟩ := by decide

/-- Channel projection of a pixel. -/
def Pixel.channel (p : Pixel) : ColorChannel → ℤ
  | ColorChannel.red => p.red
  | ColorChannel.green => p.green
  | ColorChannel.blue => p.blue

/-- Well-formed cost table: one stored row per unit of height, every row of
exactly the logical width (the shape `compute_cost_table` produces). -/
def CostTable.WF (t : CostTable) : Prop :=
  t.table.length = t.height ∧ ∀ row ∈ t.table, row.length = t.width

/-- Channel accessor used by the spec-level energy formula (the spec's
`X(i,j)` for a channel), as a rational number: the spec treats channel values
as real numbers. -/
def specX (image : PNMImage) (i j : ℕ) (channel : ColorChannel) : ℚ :=
  let p := image.data.getD (i * image.width + j) ⟨0, 0, 0⟩
  match channel with
  | ColorChannel.red => (p.red : ℚ)
  | ColorChannel.green => (p.green : ℚ)
  | ColorChannel.blue => (p.blue : ℚ)

/-- Absolute value on `ℚ`, written out so that it evaluates by `decide`. -/
def ratAbs (q : ℚ) : ℚ :=
  if q < 0 then -q else q

/-- Modelled from the spec (§4.1): the vertical term of the per-channel
gradient, `|X(i-1,j) - X(i+1,j)|/2` for interior rows, with an out-of-range
vertical neighbor replaced by the one-sided difference using the only
in-range neighbor (top row `|X(i,j) - X(i+1,j)|`, bottom row
`|X(i-1,j) - X(i,j)|`), in real (here rational) arithmetic.  Meaningful for
images of height ≥ 2. -/
def specVertTerm (image : PNMImage) (i j : ℕ) (channel : ColorChannel) : ℚ :=
  if i = 0 then ratAbs (specX image i j channel - specX image (i + 1) j channel)
  else if i = image.height - 1 then
    ratAbs (specX image (i - 1) j channel - specX image i j channel)
  else ratAbs (specX image (i - 1) j channel - specX image (i + 1) j channel) / 2

/-- Modelled from the spec (§4.1): the horizontal term, symmetric to
`specVertTerm`.  Meaningful for images of width ≥ 2. -/
def specHorizTerm (image : PNMImage) (i j : ℕ) (channel : ColorChannel) : ℚ :=
  if j = 0 then ratAbs (specX image i j channel - specX image i (j + 1) channel)
  else if j = image.width - 1 then
    ratAbs (specX image i (j - 1) channel - specX image i j channel)
  else ratAbs (specX image i (j - 1) channel - specX image i (j + 1) channel) / 2

/-- Modelled from the spec (§4.1): per-channel energy in real arithmetic. -/
def specColorEnergyReal (image : PNMImage) (i j : ℕ) (channel : ColorChannel) : ℚ :=
  specVertTerm image i j channel + specHorizTerm image i j channel

/-- Modelled from the spec (§4.1): pixel energy = sum over the three
channels, in real arithmetic. -/
def specPixelEnergyReal (image : PNMImage) (i j : ℕ) : ℚ :=
  specColorEnergyReal image i j ColorChannel.red +
    specColorEnergyReal image i j ColorChannel.green +
    specColorEnergyReal image i j ColorChannel.blue

/-- The clamped form of the per-channel energy the C code actually computes
for images with both dimensions ≥ 2: each out-of-range neighbor is replaced
by the center pixel itself, and each axis contributes
`⌊|up - down| / 2⌋ + ⌊|left - right| / 2⌋` in truncating integer arithmetic
(so one-sided differences are halved as well). -/
def clampedColorEnergy (image : PNMImage) (i j : ℕ) (channel : ColorChannel) : ℤ :=
  let cv := fun a b => color_value image a b channel
  let up := if i = 0 then cv i j else cv (i - 1) j
  let down := if i = image.height - 1 then cv i j else cv (i + 1) j
  let left := if j = 0 then cv i j else cv i (j - 1)
  let right := if j = image.width - 1 then cv i j else cv i (j + 1)
  halfAbsDiff up down + halfAbsDiff left right

/-- Modelled from the spec (§4.4, §8): order-preserving per-row deletion — the
image's pixel rows with, in each row `r`, the pixel at the seam column of row
`r` erased. -/
def specRemoveSeam (image : PNMImage) (g : Groove) : List Pixel :=
  (List.range image.height).flatMap fun r =>
    ((image.data.drop (r * image.width)).take image.width).eraseIdx
      ((g.path.getD r ⟨0, 0⟩).column)

/-- Total traversed energy of the seam described by the column function
`cols` over rows `0 … i`. -/
def pathCost (image : PNMImage) (cols : ℕ → ℕ) : ℕ → ℤ
  | 0 => pixel_energy image 0 (cols 0)
  | i + 1 => pathCost image cols i + pixel_energy image (i + 1) (cols (i + 1))

/-- A connected top-to-bottom seam for a `w × h` image, given as a column per
row: every column in range, adjacent rows' columns differing by at most 1. -/
def SeamOK (w h : ℕ) (cols : ℕ → ℕ) : Prop :=
  (∀ r, r < h → cols r < w) ∧
    ∀ r, r < h - 1 → cols (r + 1) ≤ cols r + 1 ∧ cols r ≤ cols (r + 1) + 1

instance (w h : ℕ) (cols : ℕ → ℕ) : Decidable (SeamOK w h cols) := by
  unfold SeamOK; infer_instance

/-- The dynamic-programming candidate term of the build recurrence at row
`i ≥ 1`, column `j` (slimming.c:346-360), as a function of the previous row:
left edge uses `min(prev[0], prev[1])`, right edge
`min(prev[w-1], prev[w-2])`, interior `min(prev[j], prev[j+1], prev[j-1])`. -/
def buildCand (prev : List ℤ) (w j : ℕ) : ℤ :=
  if j = 0 then min_with_two_arguments (prev.getD 0 0) (prev.getD 1 0)
  else if j = w - 1 then
    min_with_two_arguments (prev.getD (w - 1) 0) (prev.getD (w - 2) 0)
  else
    min_with_three_arguments (prev.getD j 0) (prev.getD (j + 1) 0) (prev.getD (j - 1) 0)

/-- The backtracking rule as the spec states it (§4.3): given the chosen
column `c` of the row below, look at the candidates in the row above; choose
`c-1` if `left < mid` and `mid < right`, else `c` if `mid < right`, else
`c+1`; an edge column compares only its two existing candidates (choosing the
straight-down candidate exactly when it is strictly smaller). -/
def specChoice (row : List ℤ) (w c : ℕ) : ℕ :=
  let v := fun k => row.getD k 0
  if c = 0 then (if v 0 < v 1 then 0 else 1)
  else if c = w - 1 then (if v c < v (c - 1) then c else c - 1)
  else if v (c - 1) < v c ∧ v c < v (c + 1) then c - 1
  else if v c < v (c + 1) then c else c + 1

/-!
## Concrete images used in the claim theorems

`imgA` (4×2), `imgB` (5×2) and `imgC` (3×2) are single-channel images on
which the pipeline's behavior was computed by hand; `imgA'`/`imgB'` are the
images `remove_groove_image` actually produces from them.
-/

/-- 4×2 test image (red channel 35 23 10 29 / 38 5 7 38). -/
def imgA : PNMImage :=
  ⟨4, 2, [⟨35,0,0⟩, ⟨23,0,0⟩, ⟨10,0,0⟩, ⟨29,0,0⟩, ⟨38,0,0⟩, ⟨5,0,0⟩, ⟨7,0,0⟩, ⟨38,0,0⟩]⟩

/-- The image `remove_groove_image` produces from `imgA` and its seam. -/
def imgA' : PNMImage :=
  ⟨3, 2, [⟨35,0,0⟩, ⟨23,0,0⟩, ⟨29,0,0⟩, ⟨38,0,0⟩, ⟨5,0,0⟩, ⟨5,0,0⟩, ⟨7,0,0⟩, ⟨38,0,0⟩]⟩

/-- 5×2 test image (red channel 37 27 25 21 39 / 37 4 31 15 18). -/
def imgB : PNMImage :=
  ⟨5, 2, [⟨37,0,0⟩, ⟨27,0,0⟩, ⟨25,0,0⟩, ⟨21,0,0⟩, ⟨39,0,0⟩,
          ⟨37,0,0⟩, ⟨4,0,0⟩, ⟨31,0,0⟩, ⟨15,0,0⟩, ⟨18,0,0⟩]⟩

/-- The image `remove_groove_image` produces from `imgB` and its seam. -/
def imgB' : PNMImage :=
  ⟨4, 2, [⟨37,0,0⟩, ⟨27,0,0⟩, ⟨21,0,0⟩, ⟨39,0,0⟩,
          ⟨37,0,0⟩, ⟨4,0,0⟩, ⟨31,0,0⟩, ⟨31,0,0⟩, ⟨15,0,0⟩, ⟨18,0,0⟩]⟩

/-- 3×2 test image (red channel 10 7 12 / 9 1 10). -/
def imgC : PNMImage :=
  ⟨3, 2, [⟨10,0,0⟩, ⟨7,0,0⟩, ⟨12,0,0⟩, ⟨9,0,0⟩, ⟨1,0,0⟩, ⟨10,0,0⟩]⟩

/-- C1: on `imgA` the full find/remove/update pipeline runs to completion, the
updated table's width does equal the narrowed image's width, but cell (0,1) of
the updated table is 21 while a from-scratch build of the narrowed image puts
12 there: the incremental update is **not** equivalent to a full rebuild. -/
theorem C1_update_differs_from_rebuild :
    compute_cost_table imgA = some ⟨2, 4, [[7, 21, 4, 13], [24, 28, 21, 23]]⟩ ∧
    find_optimal_groove ⟨2, 4, [[7, 21, 4, 13], [24, 28, 21, 23]]⟩ =
      some ⟨[⟨0, 2⟩, ⟨1, 2⟩], 21⟩ ∧
    remove_groove_image imgA ⟨[⟨0, 2⟩, ⟨1, 2⟩], 21⟩ = .ok imgA' ∧
    update_cost_table imgA' ⟨2, 4, [[7, 21, 4, 13], [24, 28, 21, 23]]⟩
        ⟨[⟨0, 2⟩, ⟨1, 2⟩], 21⟩ =
      some ⟨2, 3, [[7, 21, 15, 13], [24, 28, 27, 23]]⟩ ∧
    compute_cost_table imgA' = some ⟨2, 3, [[7, 12, 15], [24, 32, 24]]⟩ ∧
    (⟨2, 3, [[7, 21, 15, 13], [24, 28, 27, 23]]⟩ : CostTable).width = imgA'.width ∧
    CostTable.read ⟨2, 3, [[7, 21, 15, 13], [24, 28, 27, 23]]⟩ 0 1 = some 21 ∧
    CostTable.read ⟨2, 3, [[7, 12, 15], [24, 32, 24]]⟩ 0 1 = some 12 ∧
    (21 : ℤ) ≠ 12 := by
  decide

/-- C2 counterexample: on `imgB` the seam starts at `firstColumn = 2`, so the
cone of the claim contains only column 2 in row 0; yet the update changes cell
(0, 3) — outside the cone — from its post-shift value 19 to 13. -/
theorem C2_cell_outside_cone_modified :
    compute_cost_table imgB =
      some ⟨2, 5, [[5, 17, 6, 10, 19], [21, 19, 14, 15, 21]]⟩ ∧
    find_optimal_groove ⟨2, 5, [[5, 17, 6, 10, 19], [21, 19, 14, 15, 21]]⟩ =
      some ⟨[⟨0, 2⟩, ⟨1, 2⟩], 14⟩ ∧
    remove_groove_image imgB ⟨[⟨0, 2⟩, ⟨1, 2⟩], 14⟩ = .ok imgB' ∧
    shiftPhase ⟨2, 5, [[5, 17, 6, 10, 19], [21, 19, 14, 15, 21]]⟩
        ⟨[⟨0, 2⟩, ⟨1, 2⟩], 14⟩ =
      some ⟨2, 4, [[5, 17, 10, 19, 19], [21, 19, 15, 21, 21]]⟩ ∧
    update_cost_table imgB' ⟨2, 5, [[5, 17, 6, 10, 19], [21, 19, 14, 15, 21]]⟩
        ⟨[⟨0, 2⟩, ⟨1, 2⟩], 14⟩ =
      some ⟨2, 4, [[5, 17, 11, 13, 19], [21, 19, 29, 15, 21]]⟩ ∧
    (2 + 0 < 3 ∧ 3 < 4) ∧
    CostTable.read ⟨2, 4, [[5, 17, 10, 19, 19], [21, 19, 15, 21, 21]]⟩ 0 3 = some 19 ∧
    CostTable.read ⟨2, 4, [[5, 17, 11, 13, 19], [21, 19, 29, 15, 21]]⟩ 0 3 = some 13 ∧
    (13 : ℤ) ≠ 19 := by
  decide

/-- C3 counterexample: on `imgC` the extracted seam is columns (2, 1) with
traversed energy 6, while the connected seam (0, 1) has traversed energy 4;
the returned seam's total traversed energy is not globally minimal (the
*recorded* cost 4 is). -/
theorem C3_extracted_seam_not_minimal :
    compute_cost_table imgC = some ⟨2, 3, [[1, 4, 3], [5, 4, 8]]⟩ ∧
    find_optimal_groove ⟨2, 3, [[1, 4, 3], [5, 4, 8]]⟩ =
      some ⟨[⟨0, 2⟩, ⟨1, 1⟩], 4⟩ ∧
    SeamOK 3 2 (fun r => if r = 0 then 2 else 1) ∧
    pathCost imgC (fun r => if r = 0 then 2 else 1) 1 = 6 ∧
    SeamOK 3 2 (fun r => if r = 0 then 0 else 1) ∧
    pathCost imgC (fun r => if r = 0 then 0 else 1) 1 = 4 ∧
    (4 : ℤ) < 6 := by
  decide

/-- C4: removing the seam (column 0) from the 2×1 image `[p0, p1]` leaves
`[p0]` (because `shift_left`'s end bound is computed from the already
decremented width, the cascading shift never moves), while deleting column 0
of the only row yields `[p1]` as the spec requires. -/
theorem C4_remove_keeps_wrong_pixel :
    remove_groove_image ⟨2, 1, [⟨0,0,0⟩, ⟨1,1,1⟩]⟩ ⟨[⟨0, 0⟩], 0⟩ =
      .ok ⟨1, 1, [⟨0,0,0⟩, ⟨1,1,1⟩]⟩ ∧
    (⟨1, 1, [⟨0,0,0⟩, ⟨1,1,1⟩]⟩ : PNMImage).data.take (1 * 1) = [⟨0,0,0⟩] ∧
    specRemoveSeam ⟨2, 1, [⟨0,0,0⟩, ⟨1,1,1⟩]⟩ ⟨[⟨0, 0⟩], 0⟩ = [⟨1,1,1⟩] ∧
    ([⟨0,0,0⟩] : List Pixel) ≠ [⟨1,1,1⟩] := by
  decide

/-- C5 counterexample: on a 2×2 image whose red channel is 1 at (0,0) and 0
elsewhere, the code computes energy 0 at (0,0) (both one-sided differences are
halved and truncated to 0), while the spec's real-arithmetic formula with
unhalved one-sided differences gives 2. -/
theorem C5_energy_not_real_arithmetic :
    pixel_energy ⟨2, 2, [⟨1,0,0⟩, ⟨0,0,0⟩, ⟨0,0,0⟩, ⟨0,0,0⟩]⟩ 0 0 = 0 ∧
    specPixelEnergyReal ⟨2, 2, [⟨1,0,0⟩, ⟨0,0,0⟩, ⟨0,0,0⟩, ⟨0,0,0⟩]⟩ 0 0 = 2 ∧
    ((0 : ℤ) : ℚ) ≠ 2 := by
  refine ⟨by decide, ?_, by norm_num⟩
  norm_num [specPixelEnergyReal, specColorEnergyReal, specVertTerm, specHorizTerm,
    specX, ratAbs]

/-- C6 counterexample: on a width-1 image, `remove_groove_image` is not
rejected by any validation — the only guard is `width == 0` (error `-6`) — and
proceeds: the width is decremented to 0 and the shift bound
`width*height - 1` underflows, an out-of-bounds access.  The controller
`reduceImageWidth` likewise produces no `EmptyImage`-style rejection for
`k = 1`; it fails with out-of-bounds behavior (already in the build). -/
theorem C6_width1_reaches_oob_not_validation :
    remove_groove_image ⟨1, 2, [⟨5,5,5⟩, ⟨6,6,6⟩]⟩ ⟨[⟨0, 0⟩, ⟨1, 0⟩], 0⟩ =
      .oob ∧
    (CResult.oob : CResult PNMImage) ≠ .err (-6) ∧
    reduceImageWidth ⟨1, 2, [⟨5,5,5⟩, ⟨6,6,6⟩]⟩ 1 = none := by
  decide

/-- C9 counterexample: on the 1×1 constant-black image the code's energy at
(0,0) is 9, not 0 — every neighbor access is out of range, so `color_value`'s
error codes `-3`/`-4` flow into the arithmetic. -/
theorem C9_const_image_nonzero_energy :
    pixel_energy ⟨1, 1, [⟨0, 0, 0⟩]⟩ 0 0 = 9 ∧ (9 : ℤ) ≠ 0 := by
  decide

/-- `halfAbsDiff` is a natural number cast, hence non-negative. -/
theorem halfAbsDiff_nonneg (a b : ℤ) : 0 ≤ halfAbsDiff a b :=
  Int.ofNat_nonneg _

/-- `halfAbsDiff a a = 0`. -/
theorem halfAbsDiff_self (a : ℤ) : halfAbsDiff a a = 0 := by
  simp [halfAbsDiff]

/-- In-range channel energies are non-negative (every branch is a sum of two
`halfAbsDiff` values). -/
theorem color_energy_nonneg (image : PNMImage) (i j : ℕ) (ch : ColorChannel)
    (hi : i < image.height) (hj : j < image.width) :
    0 ≤ color_energy image i j ch := by
  have h1 : ¬ i ≥ image.height := by omega
  have h2 : ¬ j ≥ image.width := by omega
  simp only [color_energy, h1, h2, if_false]
  split_ifs <;> exact add_nonneg (halfAbsDiff_nonneg _ _) (halfAbsDiff_nonneg _ _)

/-- `pred64` on a nonzero argument is ordinary subtraction by one. -/
theorem pred64_of_ne_zero {n : ℕ} (h : n ≠ 0) : pred64 n = n - 1 := by
  simp [pred64, h]

/-- Value of `color_energy` at the bottom-right corner (dimensions ≥ 2). -/
theorem ce_bottom_right (image : PNMImage) (i j : ℕ) (ch : ColorChannel)
    (hh : 2 ≤ image.height) (hw : 2 ≤ image.width)
    (hi : i = image.height - 1) (hj : j = image.width - 1) :
    color_energy image i j ch =
      halfAbsDiff (color_value image (i - 1) j ch) (color_value image i j ch) +
        halfAbsDiff (color_value image i (j - 1) ch) (color_value image i j ch) := by
  simp only [color_energy]
  rw [if_neg (by omega : ¬ i ≥ image.height), if_neg (by omega : ¬ j ≥ image.width),
    if_pos ⟨hi, hj⟩, pred64_of_ne_zero (by omega : i ≠ 0),
    pred64_of_ne_zero (by omega : j ≠ 0)]

/-- Value of `color_energy` at the top-left corner (height ≥ 2). -/
theorem ce_top_left (image : PNMImage) (i j : ℕ) (ch : ColorChannel)
    (hh : 2 ≤ image.height) (hw : 1 ≤ image.width) (hi : i = 0) (hj : j = 0) :
    color_energy image i j ch =
      halfAbsDiff (color_value image i j ch) (color_value image (i + 1) j ch) +
        halfAbsDiff (color_value image i j ch) (color_value image i (j + 1) ch) := by
  simp only [color_energy]
  rw [if_neg (by omega : ¬ i ≥ image.height), if_neg (by omega : ¬ j ≥ image.width),
    if_neg (by omega : ¬ (i = image.height - 1 ∧ j = image.width - 1)), if_pos ⟨hi, hj⟩]

/-- Value of `color_energy` at the top-right corner (dimensions ≥ 2). -/
theorem ce_top_right (image : PNMImage) (i j : ℕ) (ch : ColorChannel)
    (hh : 2 ≤ image.height) (hw : 2 ≤ image.width)
    (hi : i = 0) (hj : j = image.width - 1) :
    color_energy image i j ch =
      halfAbsDiff (color_value image i j ch) (color_value image (i + 1) j ch) +
        halfAbsDiff (color_value image i (j - 1) ch) (color_value image i j ch) := by
  simp only [color_energy]
  rw [if_neg (by omega : ¬ i ≥ image.height), if_neg (by omega : ¬ j ≥ image.width),
    if_neg (by omega : ¬ (i = image.height - 1 ∧ j = image.width - 1)),
    if_neg (by omega : ¬ (i = 0 ∧ j = 0)), if_pos ⟨hi, hj⟩,
    pred64_of_ne_zero (by omega : j ≠ 0)]

/-- Value of `color_energy` at the bottom-left corner (dimensions ≥ 2). -/
theorem ce_bottom_left (image : PNMImage) (i j : ℕ) (ch : ColorChannel)
    (hh : 2 ≤ image.height) (hw : 2 ≤ image.width)
    (hi : i = image.height - 1) (hj : j = 0) :
    color_energy image i j ch =
      halfAbsDiff (color_value image (i - 1) j ch) (color_value image i j ch) +
        halfAbsDiff (color_value image i j ch) (color_value image i (j + 1) ch) := by
  simp only [color_energy]
  rw [if_neg (by omega : ¬ i ≥ image.height), if_neg (by omega : ¬ j ≥ image.width),
    if_neg (by omega : ¬ (i = image.height - 1 ∧ j = image.width - 1)),
    if_neg (by omega : ¬ (i = 0 ∧ j = 0)),
    if_neg (by omega : ¬ (i = 0 ∧ j = image.width - 1)), if_pos ⟨hi, hj⟩,
    pred64_of_ne_zero (by omega : i ≠ 0)]

/-- Value of `color_energy` on the top edge (height ≥ 2). -/
theorem ce_top (image : PNMImage) (i j : ℕ) (ch : ColorChannel)
    (hh : 2 ≤ image.height) (hi : i = 0) (hj0 : 0 < j) (hjw : j < image.width - 1) :
    color_energy image i j ch =
      halfAbsDiff (color_value image i j ch) (color_value image (i + 1) j ch) +
        halfAbsDiff (color_value image i (j - 1) ch) (color_value image i (j + 1) ch) := by
  simp only [color_energy]
  rw [if_neg (by omega : ¬ i ≥ image.height), if_neg (by omega : ¬ j ≥ image.width),
    if_neg (by omega : ¬ (i = image.height - 1 ∧ j = image.width - 1)),
    if_neg (by omega : ¬ (i = 0 ∧ j = 0)),
    if_neg (by omega : ¬ (i = 0 ∧ j = image.width - 1)),
    if_neg (by omega : ¬ (i = image.height - 1 ∧ j = 0)), if_pos ⟨hi, hjw, hj0⟩,
    pred64_of_ne_zero (by omega : j ≠ 0)]

/-- Value of `color_energy` on the bottom edge (height ≥ 2). -/
theorem ce_bottom (image : PNMImage) (i j : ℕ) (ch : ColorChannel)
    (hh : 2 ≤ image.height) (hi : i = image.height - 1)
    (hj0 : 0 < j) (hjw : j < image.width - 1) :
    color_energy image i j ch =
      halfAbsDiff (color_value image (i - 1) j ch) (color_value image i j ch) +
        halfAbsDiff (color_value image i (j - 1) ch) (color_value image i (j + 1) ch) := by
  simp only [color_energy]
  rw [if_neg (by omega : ¬ i ≥ image.height), if_neg (by omega : ¬ j ≥ image.width),
    if_neg (by omega : ¬ (i = image.height - 1 ∧ j = image.width - 1)),
    if_neg (by omega : ¬ (i = 0 ∧ j = 0)),
    if_neg (by omega : ¬ (i = 0 ∧ j = image.width - 1)),
    if_neg (by omega : ¬ (i = image.height - 1 ∧ j = 0)),
    if_neg (by omega : ¬ (i = 0 ∧ j < image.width - 1 ∧ 0 < j)), if_pos ⟨hi, hjw, hj0⟩,
    pred64_of_ne_zero (by omega : i ≠ 0), pred64_of_ne_zero (by omega : j ≠ 0)]

/-- Value of `color_energy` on the left edge. -/
theorem ce_left (image : PNMImage) (i j : ℕ) (ch : ColorChannel)
    (hw : 1 ≤ image.width) (hj : j = 0) (hi0 : 0 < i) (hih : i < image.height - 1) :
    color_energy image i j ch =
      halfAbsDiff (color_value image (i - 1) j ch) (color_value image (i + 1) j ch) +
        halfAbsDiff (color_value image i j ch) (color_value image i (j + 1) ch) := by
  simp only [color_energy]
  rw [if_neg (by omega : ¬ i ≥ image.height), if_neg (by omega : ¬ j ≥ image.width),
    if_neg (by omega : ¬ (i = image.height - 1 ∧ j = image.width - 1)),
    if_neg (by omega : ¬ (i = 0 ∧ j = 0)),
    if_neg (by omega : ¬ (i = 0 ∧ j = image.width - 1)),
    if_neg (by omega : ¬ (i = image.height - 1 ∧ j = 0)),
    if_neg (by omega : ¬ (i = 0 ∧ j < image.width - 1 ∧ 0 < j)),
    if_neg (by omega : ¬ (i = image.height - 1 ∧ j < image.width - 1 ∧ 0 < j)),
    if_pos ⟨hj, hih, hi0⟩, pred64_of_ne_zero (by omega : i ≠ 0)]

/-- Value of `color_energy` on the right edge (width ≥ 2). -/
theorem ce_right (image : PNMImage) (i j : ℕ) (ch : ColorChannel)
    (hw : 2 ≤ image.width) (hj : j = image.width - 1)
    (hi0 : 0 < i) (hih : i < image.height - 1) :
    color_energy image i j ch =
      halfAbsDiff (color_value image (i - 1) j ch) (color_value image (i + 1) j ch) +
        halfAbsDiff (color_value image i (j - 1) ch) (color_value image i j ch) := by
  simp only [color_energy]
  rw [if_neg (by omega : ¬ i ≥ image.height), if_neg (by omega : ¬ j ≥ image.width),
    if_neg (by omega : ¬ (i = image.height - 1 ∧ j = image.width - 1)),
    if_neg (by omega : ¬ (i = 0 ∧ j = 0)),
    if_neg (by omega : ¬ (i = 0 ∧ j = image.width - 1)),
    if_neg (by omega : ¬ (i = image.height - 1 ∧ j = 0)),
    if_neg (by omega : ¬ (i = 0 ∧ j < image.width - 1 ∧ 0 < j)),
    if_neg (by omega : ¬ (i = image.height - 1 ∧ j < image.width - 1 ∧ 0 < j)),
    if_neg (by omega : ¬ (j = 0 ∧ i < image.height - 1 ∧ 0 < i)),
    if_pos ⟨hj, hih, hi0⟩, pred64_of_ne_zero (by omega : i ≠ 0),
    pred64_of_ne_zero (by omega : j ≠ 0)]

/-- Value of `color_energy` at interior pixels. -/
theorem ce_interior (image : PNMImage) (i j : ℕ) (ch : ColorChannel)
    (hi0 : 0 < i) (hih : i < image.height - 1) (hj0 : 0 < j) (hjw : j < image.width - 1) :
    color_energy image i j ch =
      halfAbsDiff (color_value image (i - 1) j ch) (color_value image (i + 1) j ch) +
        halfAbsDiff (color_value image i (j - 1) ch) (color_value image i (j + 1) ch) := by
  simp only [color_energy]
  rw [if_neg (by omega : ¬ i ≥ image.height), if_neg (by omega : ¬ j ≥ image.width),
    if_neg (by omega : ¬ (i = image.height - 1 ∧ j = image.width - 1)),
    if_neg (by omega : ¬ (i = 0 ∧ j = 0)),
    if_neg (by omega : ¬ (i = 0 ∧ j = image.width - 1)),
    if_neg (by omega : ¬ (i = image.height - 1 ∧ j = 0)),
    if_neg (by omega : ¬ (i = 0 ∧ j < image.width - 1 ∧ 0 < j)),
    if_neg (by omega : ¬ (i = image.height - 1 ∧ j < image.width - 1 ∧ 0 < j)),
    if_neg (by omega : ¬ (j = 0 ∧ i < image.height - 1 ∧ 0 < i)),
    if_neg (by omega : ¬ (j = image.width - 1 ∧ i < image.height - 1 ∧ 0 < i)),
    pred64_of_ne_zero (by omega : i ≠ 0), pred64_of_ne_zero (by omega : j ≠ 0)]

/-- On an image with both dimensions at least 2, the code's 9-case channel
energy coincides with the clamped formulation. -/
theorem color_energy_eq_clamped (image : PNMImage) (i j : ℕ) (ch : ColorChannel)
    (hh : 2 ≤ image.height) (hw : 2 ≤ image.width)
    (hi : i < image.height) (hj : j < image.width) :
    color_energy image i j ch = clampedColorEnergy image i j ch := by
  have hcasei : i = 0 ∨ i = image.height - 1 ∨ (0 < i ∧ i < image.height - 1) := by omega
  have hcasej : j = 0 ∨ j = image.width - 1 ∨ (0 < j ∧ j < image.width - 1) := by omega
  simp only [clampedColorEnergy]
  rcases hcasei with hi' | hi' | ⟨hia, hib⟩ <;> rcases hcasej with hj' | hj' | ⟨hja, hjb⟩
  · rw [ce_top_left image i j ch hh (by omega) hi' hj', if_pos hi',
      if_neg (by omega : ¬ i = image.height - 1), if_pos hj',
      if_neg (by omega : ¬ j = image.width - 1)]
  · rw [ce_top_right image i j ch hh hw hi' hj', if_pos hi',
      if_neg (by omega : ¬ i = image.height - 1),
      if_neg (by omega : ¬ j = 0), if_pos hj']
  · rw [ce_top image i j ch hh hi' hja hjb, if_pos hi',
      if_neg (by omega : ¬ i = image.height - 1),
      if_neg (by omega : ¬ j = 0), if_neg (by omega : ¬ j = image.width - 1)]
  · rw [ce_bottom_left image i j ch hh hw hi' hj', if_neg (by omega : ¬ i = 0),
      if_pos hi', if_pos hj', if_neg (by omega : ¬ j = image.width - 1)]
  · rw [ce_bottom_right image i j ch hh hw hi' hj', if_neg (by omega : ¬ i = 0),
      if_pos hi', if_neg (by omega : ¬ j = 0), if_pos hj']
  · rw [ce_bottom image i j ch hh hi' hja hjb, if_neg (by omega : ¬ i = 0),
      if_pos hi', if_neg (by omega : ¬ j = 0),
      if_neg (by omega : ¬ j = image.width - 1)]
  · rw [ce_left image i j ch (by omega) hj' hia hib, if_neg (by omega : ¬ i = 0),
      if_neg (by omega : ¬ i = image.height - 1), if_pos hj',
      if_neg (by omega : ¬ j = image.width - 1)]
  · rw [ce_right image i j ch hw hj' hia hib, if_neg (by omega : ¬ i = 0),
      if_neg (by omega : ¬ i = image.height - 1),
      if_neg (by omega : ¬ j = 0), if_pos hj']
  · rw [ce_interior image i j ch hia hib hja hjb, if_neg (by omega : ¬ i = 0),
      if_neg (by omega : ¬ i = image.height - 1),
      if_neg (by omega : ¬ j = 0), if_neg (by omega : ¬ j = image.width - 1)]

/-- On a constant-colored image every in-range `color_value` read returns the
constant's channel value. -/
theorem color_value_const (image : PNMImage) (c : Pixel)
    (hlen : image.data.length = image.width * image.height)
    (hconst : ∀ p ∈ image.data, p = c) (a b : ℕ) (ch : ColorChannel)
    (ha : a < image.height) (hb : b < image.width) :
    color_value image a b ch = c.channel ch := by
  have hidx : a * image.width + b < image.data.length := by
    rw [hlen]
    calc a * image.width + b < a * image.width + image.width := by omega
      _ = (a + 1) * image.width := by ring
      _ ≤ image.height * image.width := Nat.mul_le_mul_right _ (by omega)
      _ = image.width * image.height := Nat.mul_comm _ _
  simp only [color_value]
  rw [if_neg (by omega), if_neg (by omega), List.getD_eq_getElem _ _ hidx,
    hconst _ (List.getElem_mem hidx)]
  cases ch <;> rfl

/-- On a constant-colored image with both dimensions ≥ 2 the clamped channel
energy is zero. -/
theorem clamped_const_zero (image : PNMImage) (c : Pixel) (i j : ℕ) (ch : ColorChannel)
    (hlen : image.data.length = image.width * image.height)
    (hconst : ∀ p ∈ image.data, p = c)
    (hh : 2 ≤ image.height) (hw : 2 ≤ image.width)
    (hi : i < image.height) (hj : j < image.width) :
    clampedColorEnergy image i j ch = 0 := by
  have hcv : ∀ a b, a < image.height → b < image.width →
      color_value image a b ch = c.channel ch := fun a b ha hb =>
    color_value_const image c hlen hconst a b ch ha hb
  simp only [clampedColorEnergy]
  have hup : (if i = 0 then color_value image i j ch else color_value image (i - 1) j ch) =
      c.channel ch := by
    split_ifs <;> exact hcv _ _ (by omega) (by omega)
  have hdown : (if i = image.height - 1 then color_value image i j ch
      else color_value image (i + 1) j ch) = c.channel ch := by
    split_ifs with h <;> exact hcv _ _ (by omega) (by omega)
  have hleft : (if j = 0 then color_value image i j ch else color_value image i (j - 1) ch) =
      c.channel ch := by
    split_ifs <;> exact hcv _ _ (by omega) (by omega)
  have hright : (if j = image.width - 1 then color_value image i j ch
      else color_value image i (j + 1) ch) = c.channel ch := by
    split_ifs with h <;> exact hcv _ _ (by omega) (by omega)
  rw [hup, hdown, hleft, hright, halfAbsDiff_self]
  rfl

/-- For images with both dimensions ≥ 2, the pixel energy is the sum of the
clamped channel energies. -/
theorem pixel_energy_eq_clamped_sum (image : PNMImage) (i j : ℕ)
    (hh : 2 ≤ image.height) (hw : 2 ≤ image.width)
    (hi : i < image.height) (hj : j < image.width) :
    pixel_energy image i j =
      clampedColorEnergy image i j ColorChannel.red +
        clampedColorEnergy image i j ColorChannel.green +
        clampedColorEnergy image i j ColorChannel.blue := by
  simp only [pixel_energy]
  rw [if_neg (by omega), if_neg (by omega),
    color_energy_eq_clamped image i j ColorChannel.red hh hw hi hj,
    color_energy_eq_clamped image i j ColorChannel.green hh hw hi hj,
    color_energy_eq_clamped image i j ColorChannel.blue hh hw hi hj]

/-- C5 (amended): for images with both dimensions ≥ 2, the pixel energy the
code computes equals, per channel, the clamped integer-arithmetic version of
the spec's gradient formula: each out-of-range neighbor is replaced by the
center pixel itself and each absolute difference — the one-sided ones
included — is divided by 2 with truncation. -/
theorem C5_pixel_energy_clamped_integer (image : PNMImage) (i j : ℕ)
    (hh : 2 ≤ image.height) (hw : 2 ≤ image.width)
    (hi : i < image.height) (hj : j < image.width) :
    pixel_energy image i j =
      clampedColorEnergy image i j ColorChannel.red +
        clampedColorEnergy image i j ColorChannel.green +
        clampedColorEnergy image i j ColorChannel.blue :=
  pixel_energy_eq_clamped_sum image i j hh hw hi hj

/-- Witness for C5 (amended) at the pixel (0,1) of a concrete 2×2 image. -/
theorem C5_pixel_energy_clamped_integer_witness :
    pixel_energy ⟨2, 2, [⟨9,0,0⟩, ⟨2,0,0⟩, ⟨4,0,0⟩, ⟨7,0,0⟩]⟩ 0 1 =
      clampedColorEnergy ⟨2, 2, [⟨9,0,0⟩, ⟨2,0,0⟩, ⟨4,0,0⟩, ⟨7,0,0⟩]⟩ 0 1 ColorChannel.red +
        clampedColorEnergy ⟨2, 2, [⟨9,0,0⟩, ⟨2,0,0⟩, ⟨4,0,0⟩, ⟨7,0,0⟩]⟩ 0 1
          ColorChannel.green +
        clampedColorEnergy ⟨2, 2, [⟨9,0,0⟩, ⟨2,0,0⟩, ⟨4,0,0⟩, ⟨7,0,0⟩]⟩ 0 1
          ColorChannel.blue :=
  C5_pixel_energy_clamped_integer ⟨2, 2, [⟨9,0,0⟩, ⟨2,0,0⟩, ⟨4,0,0⟩, ⟨7,0,0⟩]⟩ 0 1
    (by decide) (by decide) (by decide) (by decide)

/-- C9 (amended): for every valid pixel of any image the code's energy is
non-negative; and on a constant-colored image with both dimensions ≥ 2 the
energy is zero at every valid pixel (on 1×1 or single-row/column images the
error codes of out-of-range neighbor reads make it nonzero, see the
counterexample). -/
theorem C9_energy_nonneg_and_const_zero (image : PNMImage) (i j : ℕ)
    (hi : i < image.height) (hj : j < image.width) :
    0 ≤ pixel_energy image i j ∧
      (∀ c : Pixel, image.data.length = image.width * image.height →
        (∀ p ∈ image.data, p = c) →
        2 ≤ image.height → 2 ≤ image.width → pixel_energy image i j = 0) := by
  constructor
  · simp only [pixel_energy]
    rw [if_neg (by omega), if_neg (by omega)]
    have h1 := color_energy_nonneg image i j ColorChannel.red hi hj
    have h2 := color_energy_nonneg image i j ColorChannel.green hi hj
    have h3 := color_energy_nonneg image i j ColorChannel.blue hi hj
    omega
  · intro c hlen hconst hh hw
    rw [pixel_energy_eq_clamped_sum image i j hh hw hi hj,
      clamped_const_zero image c i j ColorChannel.red hlen hconst hh hw hi hj,
      clamped_const_zero image c i j ColorChannel.green hlen hconst hh hw hi hj,
      clamped_const_zero image c i j ColorChannel.blue hlen hconst hh hw hi hj]
    rfl

/-- Witness for C9 on a concrete 2×2 constant image. -/
theorem C9_energy_nonneg_and_const_zero_witness :
    0 ≤ pixel_energy ⟨2, 2, [⟨3,4,5⟩, ⟨3,4,5⟩, ⟨3,4,5⟩, ⟨3,4,5⟩]⟩ 1 1 ∧
      pixel_energy ⟨2, 2, [⟨3,4,5⟩, ⟨3,4,5⟩, ⟨3,4,5⟩, ⟨3,4,5⟩]⟩ 1 1 = 0 := by
  have h := C9_energy_nonneg_and_const_zero ⟨2, 2, [⟨3,4,5⟩, ⟨3,4,5⟩, ⟨3,4,5⟩, ⟨3,4,5⟩]⟩ 1 1
    (by decide) (by decide)
  exact ⟨h.1, h.2 ⟨3,4,5⟩ (by decide) (by decide) (by decide) (by decide)⟩

/-- C6 (amended): the only width validation in the pipeline is
`remove_groove_image`'s `width == 0` guard (error `-6`).  A width-1 image
passes the guard; the width is decremented to 0 and the first shift's
`size_t` end bound `width*height - 1` underflows, making the removal an
out-of-bounds access rather than any `EmptyImage`-style rejection.  (The
bounds `< 2^64 - 1` say that the seam column and the pixel buffer are smaller
than the address space.) -/
theorem C6_remove_guard_and_width1_oob :
    (∀ (image : PNMImage) (g : Groove), image.width = 0 →
      remove_groove_image image g = .err (-6)) ∧
    (∀ (image : PNMImage) (g : Groove) (p0 : PixelCoordinates),
      image.width = 1 → 1 ≤ image.height → g.path.get? 0 = some p0 →
      p0.column < 2 ^ 64 - 1 → image.data.length < 2 ^ 64 - 1 →
      remove_groove_image image g = .oob) := by
  constructor
  · intro image g h0
    simp [remove_groove_image, h0]
  · intro image g p0 hw hh hp0 hcol hlen
    have hw1 : ¬ image.width = 0 := by omega
    simp only [remove_groove_image, if_neg hw1]
    obtain ⟨n, hn⟩ : ∃ n, image.height = n + 1 := ⟨image.height - 1, by omega⟩
    have himg : ({ image with width := image.width - 1 } : PNMImage).height = n + 1 := hn
    rw [himg]
    simp only [removeLoop, hp0]
    have hw0 : image.width - 1 = 0 := by omega
    simp only [shift_left, hw0, Nat.zero_mul, Nat.mul_zero, Nat.zero_add, pred64, reduceIte]
    rw [if_neg (by omega), if_neg (by omega)]

/-- Witness for C6: a width-0 image is rejected with `-6`; the width-1 image
from the counterexample ends in the out-of-bounds shift. -/
theorem C6_remove_guard_and_width1_oob_witness :
    remove_groove_image ⟨0, 1, []⟩ ⟨[], 0⟩ = .err (-6) ∧
    remove_groove_image ⟨1, 2, [⟨5,5,5⟩, ⟨6,6,6⟩]⟩ ⟨[⟨0, 1⟩, ⟨1, 0⟩], 0⟩ = .oob :=
  ⟨C6_remove_guard_and_width1_oob.1 ⟨0, 1, []⟩ ⟨[], 0⟩ rfl,
   C6_remove_guard_and_width1_oob.2 ⟨1, 2, [⟨5,5,5⟩, ⟨6,6,6⟩]⟩ ⟨[⟨0, 1⟩, ⟨1, 0⟩], 0⟩
     ⟨0, 1⟩ rfl (by norm_num) rfl (by norm_num) (by norm_num)⟩

/-- `optMap` preserves length. -/
theorem optMap_length {f : ℕ → Option ℤ} :
    ∀ {l : List ℕ} {r : List ℤ}, optMap f l = some r → r.length = l.length := by
  intro l
  induction l with
  | nil => intro r h; simp only [optMap] at h; injection h with h; rw [← h]; rfl
  | cons a as ih =>
    intro r h
    simp only [optMap] at h
    cases hfa : f a with
    | none => rw [hfa] at h; simp at h
    | some b =>
      rw [hfa] at h
      cases has : optMap f as with
      | none => rw [has] at h; simp at h
      | some bs =>
        rw [has] at h
        simp only [Option.some_bind, Option.pure_def] at h
        injection h with h
        rw [← h]
        simp [ih has]

/-- Cells of a successful `optMap`: entry `k` of the result is `f` of entry
`k` of the input. -/
theorem optMap_get? {f : ℕ → Option ℤ} :
    ∀ {l : List ℕ} {r : List ℤ}, optMap f l = some r →
      ∀ {k : ℕ} {a : ℕ}, l.get? k = some a → f a = r.get? k := by
  intro l
  induction l with
  | nil => intro r _ k a ha; simp at ha
  | cons x xs ih =>
    intro r h k a ha
    simp only [optMap] at h
    cases hfx : f x with
    | none => rw [hfx] at h; simp at h
    | some b =>
      rw [hfx] at h
      cases hxs : optMap f xs with
      | none => rw [hxs] at h; simp at h
      | some bs =>
        rw [hxs] at h
        simp only [Option.some_bind, Option.pure_def] at h
        injection h with h
        subst h
        cases k with
        | zero =>
          simp only [List.get?] at ha ⊢
          injection ha with ha
          rw [← ha, hfx]
        | succ k' =>
          simp only [List.get?] at ha ⊢
          exact ih hxs ha

/-- Shifting a table row preserves its physical length. -/
theorem shiftRowLeft_length (w : ℕ) (row : List ℤ) (s : ℕ) :
    (shiftRowLeft w row s).length = row.length := by
  simp [shiftRowLeft]

/-- Rows of a successful shift phase: row `k` is the `shiftRowLeft` of table
row `i0 + k` at the seam column of that row. -/
theorem shiftRows_get? (t : CostTable) (g : Groove) :
    ∀ {n i0 : ℕ} {rows : List (List ℤ)}, shiftRows t g i0 n = some rows →
      ∀ {k : ℕ}, k < n → ∃ row p, t.table.get? (i0 + k) = some row ∧
        g.path.get? (i0 + k) = some p ∧
        rows.get? k = some (shiftRowLeft t.width row p.column) := by
  intro n
  induction n with
  | zero => intro i0 rows h k hk; omega
  | succ n ih =>
    intro i0 rows h k hk
    simp only [shiftRows] at h
    cases hrow : t.table.get? i0 with
    | none => rw [hrow] at h; simp at h
    | some row =>
      rw [hrow] at h
      cases hp : g.path.get? i0 with
      | none => rw [hp] at h; simp at h
      | some p =>
        rw [hp] at h
        cases hrest : shiftRows t g (i0 + 1) n with
        | none => rw [hrest] at h; simp at h
        | some rest =>
          rw [hrest] at h
          simp only [Option.some_bind, Option.pure_def] at h
          injection h with h
          subst h
          cases k with
          | zero => exact ⟨row, p, by simpa using hrow, by simpa using hp, rfl⟩
          | succ k' =>
            have hk' : k' < n := by omega
            obtain ⟨row', p', h1, h2, h3⟩ := ih hrest hk'
            refine ⟨row', p', ?_, ?_, h3⟩
            · rw [← h1]; congr 1; omega
            · rw [← h2]; congr 1; omega

/-- C10: for rows `i ≥ 1` both the build and the update evaluate the
left-edge recurrence (reading `prev[1]`) and the right-edge recurrence
(reading `prev[width-2]`) unconditionally; with width 1 these reads are out
of range — the build reads column 1 of a 1-element row, and the update's
`width - 2` wraps around on `size_t` — so on any valid width-1 image of
height ≥ 2 both operations fail (`none` models the out-of-bounds access). -/
theorem C10_width1_out_of_bounds :
    (∀ image : PNMImage, image.width = 1 → 2 ≤ image.height →
      compute_cost_table image = none) ∧
    (∀ (image : PNMImage) (t : CostTable) (g : Groove), image.width = 1 →
      2 ≤ image.height → t.height = image.height →
      (∀ row ∈ t.table, 1 ≤ row.length ∧ row.length ≤ 2 ^ 64 - 1) →
      update_cost_table image t g = none) := by
  constructor
  · intro image hw hh
    simp only [compute_cost_table]
    cases hr0 : buildRow0 image with
    | none => rfl
    | some r0 =>
      have hlen : r0.length = 1 := by
        have := optMap_length (f := buildRow0Cell image) hr0
        simpa [hw] using this
      obtain ⟨m, hm⟩ : ∃ m, image.height - 1 = m + 1 := ⟨image.height - 2, by omega⟩
      have hcell : buildRowCell image r0 1 0 = none := by
        have h1 : r0.get? 1 = none := by
          rw [List.get?_eq_none]; omega
        have h1b : r0[1]? = none := by
          rw [← List.get?_eq_getElem?]; exact h1
        simp only [buildRowCell, if_pos rfl]
        cases h0 : r0.get? 0 <;> simp [h0, h1, h1b]
      have hrow1 : buildRow image r0 1 = none := by
        have hr1 : List.range 1 = [0] := rfl
        simp only [buildRow, hw, hr1, optMap, hcell, Option.none_bind]
      rw [hm]
      simp [buildRowsFrom, hrow1]
  · intro image t g hw hh hth hrows
    simp only [update_cost_table]
    cases hsp : shiftPhase t g with
    | none => rfl
    | some st =>
      simp only [shiftPhase] at hsp
      cases hsr : shiftRows t g 0 t.height with
      | none => rw [hsr] at hsp; simp at hsp
      | some rows =>
        rw [hsr] at hsp
        simp only [Option.some_bind, Option.pure_def] at hsp
        injection hsp with hsp
        subst hsp
        simp only [Option.some_bind]
        obtain ⟨row1, p1, hrow1, hp1, hget1⟩ :=
          shiftRows_get? t g hsr (k := 1) (by omega)
        obtain ⟨row0, p0, hrow0, hp0, hget0⟩ :=
          shiftRows_get? t g hsr (k := 0) (by omega)
        cases h0 : (CostTable.mk t.height (t.width - 1) rows).table.get? 0 with
        | none => rfl
        | some shifted0 =>
          have h0' : rows.get? 0 = some shifted0 := h0
          simp only [Option.some_bind]
          cases hgp0 : g.path.get? 0 with
          | none => rfl
          | some q0 =>
            simp only [Option.some_bind]
            cases hur0 : updateRow0 image shifted0 q0.column with
            | none => rfl
            | some r0 =>
              simp only [Option.some_bind]
              obtain ⟨m, hm⟩ : ∃ m, image.height - 1 = m + 1 :=
                ⟨image.height - 2, by omega⟩
              rw [hm]
              simp only [updateRowsFrom]
              have hget1' : rows.get? 1 = some (shiftRowLeft t.width row1 p1.column) := hget1
              have hshlen : (shiftRowLeft t.width row1 p1.column).length = row1.length :=
                shiftRowLeft_length _ _ _
              have hrow1len := hrows row1 (List.get?_mem hrow1)
              have hr0len : r0.length ≤ 2 ^ 64 - 1 := by
                have h1 := optMap_length (f := updateRow0Cell image shifted0 q0.column) hur0
                have h2 : shifted0.length ≤ 2 ^ 64 - 1 := by
                  have heq : shifted0 = shiftRowLeft t.width row0 p0.column := by
                    have hg : rows.get? 0 = some (shiftRowLeft t.width row0 p0.column) := hget0
                    rw [h0'] at hg
                    injection hg
                  rw [heq, shiftRowLeft_length]
                  exact (hrows row0 (List.get?_mem hrow0)).2
                simpa [h1] using h2
              have hcell : updateRowCell image r0 (shiftRowLeft t.width row1 p1.column)
                  1 p1.column 0 = none := by
                simp only [updateRowCell, hw, if_pos rfl]
                have hb : r0.get? (pred64 (pred64 1)) = none := by
                  have hp : pred64 (pred64 1) = 2 ^ 64 - 1 := by simp [pred64]
                  rw [hp, List.get?_eq_none]
                  omega
                have hb2 : r0[pred64 (pred64 1)]? = none := by
                  rw [← List.get?_eq_getElem?]; exact hb
                cases ha : r0.get? (1 - 1) <;> simp [ha, hb, hb2]
              have hupd : updateRow image r0 (shiftRowLeft t.width row1 p1.column)
                  1 p1.column = none := by
                simp only [updateRow, hshlen]
                obtain ⟨sLen, hsLen⟩ : ∃ sLen, row1.length = sLen + 1 :=
                  ⟨row1.length - 1, by omega⟩
                rw [hsLen, List.range_succ_eq_map]
                simp only [optMap, hcell, Option.none_bind]
              have hst : (CostTable.mk t.height (t.width - 1) rows).table.get? 1 =
                  some (shiftRowLeft t.width row1 p1.column) := hget1'
              simp only [hst, Option.some_bind, hp1, hupd, Option.none_bind]

/-- Witness for C10 on a concrete width-1 image (and a matching table for the
update part). -/
theorem C10_width1_out_of_bounds_witness :
    compute_cost_table ⟨1, 2, [⟨5,5,5⟩, ⟨6,6,6⟩]⟩ = none ∧
    update_cost_table ⟨1, 2, [⟨5,5,5⟩, ⟨6,6,6⟩]⟩ ⟨2, 2, [[1, 2], [3, 4]]⟩
      ⟨[⟨0, 0⟩, ⟨1, 0⟩], 0⟩ = none :=
  ⟨C10_width1_out_of_bounds.1 ⟨1, 2, [⟨5,5,5⟩, ⟨6,6,6⟩]⟩ rfl (by norm_num),
   C10_width1_out_of_bounds.2 ⟨1, 2, [⟨5,5,5⟩, ⟨6,6,6⟩]⟩ ⟨2, 2, [[1, 2], [3, 4]]⟩
     ⟨[⟨0, 0⟩, ⟨1, 0⟩], 0⟩ rfl (by norm_num) rfl
     (by intro row hrow; fin_cases hrow <;> norm_num)⟩

/-- `List.getD` of a successful `List.get?`. -/
theorem getD_of_get? {l : List ℤ} {n : ℕ} {a : ℤ} (h : l.get? n = some a) (d : ℤ) :
    l.getD n d = a := by
  obtain ⟨hlt, rfl⟩ := List.get?_eq_some.mp h
  rw [List.getD_eq_getElem _ _ hlt, List.get_eq_getElem]

/-- Invariant of the last-row scan loop: starting from state `(p, m)` with
`p < i`, the final state is below `m`, is either the initial state or an
element of the remainder together with its index, is a lower bound on the
remainder, and every scanned position strictly before the final one holds a
strictly larger value (first-minimum semantics). -/
theorem scanMinAux_spec :
    ∀ (rest : List ℤ) (i p : ℕ) (m : ℤ) (p' : ℕ) (m' : ℤ), p < i →
      scanMinAux rest i (p, m) = (p', m') →
      m' ≤ m ∧
      ((p' = p ∧ m' = m) ∨
        ∃ k, k < rest.length ∧ p' = i + k ∧ rest.get? k = some m' ∧ m' < m) ∧
      (∀ k v, rest.get? k = some v → m' ≤ v) ∧
      (∀ k v, i + k < p' → rest.get? k = some v → m' < v) := by
  intro rest
  induction rest with
  | nil =>
    intro i p m p' m' hpi h
    simp only [scanMinAux] at h
    injection h with h1 h2
    subst h1; subst h2
    refine ⟨le_refl _, Or.inl ⟨rfl, rfl⟩, ?_, ?_⟩
    · intro k v hv; simp at hv
    · intro k v hlt hv; simp at hv
  | cons x xs ih =>
    intro i p m p' m' hpi h
    simp only [scanMinAux] at h
    by_cases hx : x < m
    · rw [if_pos hx] at h
      obtain ⟨ih1, ih2, ih3, ih4⟩ := ih (i + 1) i x p' m' (by omega) h
      refine ⟨ih1.trans (le_of_lt hx), ?_, ?_, ?_⟩
      · rcases ih2 with ⟨he1, he2⟩ | ⟨k, hk, h1, h2, h3⟩
        · right
          exact ⟨0, by simp, by omega, by rw [he2]; rfl, by rw [he2]; exact hx⟩
        · right
          refine ⟨k + 1, by simpa using hk, by omega, h2, h3.trans hx⟩
      · intro k v hv
        cases k with
        | zero =>
          simp only [List.get?] at hv
          injection hv with hv
          rw [← hv]; exact ih1
        | succ k' => exact ih3 k' v hv
      · intro k v hlt hv
        cases k with
        | zero =>
          simp only [List.get?] at hv
          injection hv with hv
          rw [← hv]
          rcases ih2 with ⟨he1, _⟩ | ⟨_, _, _, _, h3⟩
          · omega
          · exact h3
        | succ k' =>
          exact ih4 k' v (by omega) hv
    · rw [if_neg hx] at h
      obtain ⟨ih1, ih2, ih3, ih4⟩ := ih (i + 1) p m p' m' (by omega) h
      refine ⟨ih1, ?_, ?_, ?_⟩
      · rcases ih2 with he | ⟨k, hk, h1, h2, h3⟩
        · exact Or.inl he
        · exact Or.inr ⟨k + 1, by simpa using hk, by omega, h2, h3⟩
      · intro k v hv
        cases k with
        | zero =>
          simp only [List.get?] at hv
          injection hv with hv
          rw [← hv]
          exact ih1.trans (not_lt.mp hx)
        | succ k' => exact ih3 k' v hv
      · intro k v hlt hv
        cases k with
        | zero =>
          simp only [List.get?] at hv
          injection hv with hv
          rw [← hv]
          rcases ih2 with ⟨he1, _⟩ | ⟨_, _, _, _, h3⟩
          · omega
          · exact lt_of_lt_of_le h3 (not_lt.mp hx)
        | succ k' =>
          exact ih4 k' v (by omega) hv

/-- Specification of the last-row scan: on success it returns the position of
the first (lowest-index) minimum, together with the minimum itself. -/
theorem argminFirst_spec (l : List ℤ) (p : ℕ) (m : ℤ)
    (h : argminFirst l = some (p, m)) :
    p < l.length ∧ l.get? p = some m ∧ (∀ k v, l.get? k = some v → m ≤ v) ∧
      (∀ k, k < p → ∀ v, l.get? k = some v → m < v) := by
  cases l with
  | nil => simp [argminFirst] at h
  | cons v rest =>
    simp only [argminFirst] at h
    injection h with h
    obtain ⟨h1, h2, h3, h4⟩ :=
      scanMinAux_spec rest 1 0 v p m (by omega)
        (by rw [h])
    rcases h2 with ⟨hp, hm⟩ | ⟨k, hk, hp, hv, hlt⟩
    · subst hp; subst hm
      refine ⟨by simp, rfl, ?_, ?_⟩
      · intro k v' hv'
        cases k with
        | zero => simp only [List.get?] at hv'; injection hv' with hv'; omega
        | succ k' => exact h3 k' v' hv'
      · intro k hk; omega
    · subst hp
      have hp' : (1 + k : ℕ) = k + 1 := by omega
      refine ⟨by simp; omega, ?_, ?_, ?_⟩
      · rw [hp']
        simpa [List.get?] using hv
      · intro k' v' hv'
        cases k' with
        | zero => simp only [List.get?] at hv'; injection hv' with hv'; omega
        | succ k'' => exact h3 k'' v' hv'
      · intro k' hk' v' hv'
        cases k' with
        | zero => simp only [List.get?] at hv'; injection hv' with hv'; omega
        | succ k'' => exact h4 k'' v' (by omega) hv'

/-- Specification of `find_optimal_pixel` on a table whose rows have exactly
the logical width: on success the input and output columns are in range, they
differ by at most one, and the output is exactly the documented rule
(`specChoice`) applied to the row above. -/
theorem fop_spec (t : CostTable) (line c col : ℕ)
    (hWF : ∀ row ∈ t.table, row.length = t.width)
    (h : find_optimal_pixel t line c = some col) :
    c < t.width ∧ col < t.width ∧ col ≤ c + 1 ∧ c ≤ col + 1 ∧
      ∀ row, t.table.get? (line - 1) = some row → col = specChoice row t.width c := by
  simp only [find_optimal_pixel] at h
  by_cases hl : line = 0
  · rw [if_pos hl] at h; exact absurd h (by simp)
  rw [if_neg hl] at h
  by_cases hc0 : c = 0
  · subst hc0
    rw [if_pos rfl] at h
    simp only [CostTable.read] at h
    cases hrow : t.table.get? (line - 1) with
    | none => rw [hrow] at h; simp at h
    | some row =>
      rw [hrow] at h
      simp only [Option.some_bind] at h
      cases ha : row.get? 0 with
      | none => rw [ha] at h; simp at h
      | some a =>
        rw [ha] at h
        cases hb : row.get? (0 + 1) with
        | none => rw [hb] at h; simp at h
        | some b =>
          rw [hb] at h
          simp only [Option.some_bind] at h
          injection h with h
          have hwidth : row.length = t.width := hWF row (List.get?_mem hrow)
          have hb1 : (1 : ℕ) < t.width := by
            have := (List.get?_eq_some.mp hb).choose
            omega
          refine ⟨by omega, ?_, ?_, ?_, ?_⟩
          · rw [← h]; split_ifs <;> omega
          · rw [← h]; split_ifs <;> omega
          · rw [← h]; split_ifs <;> omega
          · intro row' hrow'
            injection hrow' with hrow'
            subst hrow'
            rw [specChoice, if_pos rfl, ← h]
            simp only [getD_of_get? ha, getD_of_get? (by simpa using hb)]
  · rw [if_neg hc0] at h
    by_cases hcw : c = t.width - 1
    · rw [if_pos hcw] at h
      simp only [CostTable.read] at h
      cases hrow : t.table.get? (line - 1) with
      | none => rw [hrow] at h; simp at h
      | some row =>
        rw [hrow] at h
        simp only [Option.some_bind] at h
        cases ha : row.get? c with
        | none => rw [ha] at h; simp at h
        | some a =>
          rw [ha] at h
          cases hb : row.get? (c - 1) with
          | none => rw [hb] at h; simp at h
          | some b =>
            rw [hb] at h
            simp only [Option.some_bind] at h
            injection h with h
            have hwidth : row.length = t.width := hWF row (List.get?_mem hrow)
            have hcb : c < t.width := by
              have := (List.get?_eq_some.mp ha).choose
              omega
            refine ⟨hcb, ?_, ?_, ?_, ?_⟩
            · rw [← h]; split_ifs <;> omega
            · rw [← h]; split_ifs <;> omega
            · rw [← h]; split_ifs <;> omega
            · intro row' hrow'
              injection hrow' with hrow'
              subst hrow'
              rw [specChoice, if_neg hc0, if_pos hcw, ← h]
              simp only [getD_of_get? ha, getD_of_get? hb]
    · rw [if_neg hcw] at h
      simp only [CostTable.read] at h
      cases hrow : t.table.get? (line - 1) with
      | none => rw [hrow] at h; simp at h
      | some row =>
        rw [hrow] at h
        simp only [Option.some_bind] at h
        cases ha : row.get? (c - 1) with
        | none => rw [ha] at h; simp at h
        | some a =>
          rw [ha] at h
          cases hb : row.get? c with
          | none => rw [hb] at h; simp at h
          | some b =>
            rw [hb] at h
            cases hc : row.get? (c + 1) with
            | none => rw [hc] at h; simp at h
            | some cc =>
              rw [hc] at h
              simp only [Option.some_bind] at h
              injection h with h
              have hwidth : row.length = t.width := hWF row (List.get?_mem hrow)
              have hcb : c + 1 < t.width := by
                have := (List.get?_eq_some.mp hc).choose
                omega
              refine ⟨by omega, ?_, ?_, ?_, ?_⟩
              · rw [← h]; split_ifs <;> omega
              · rw [← h]; split_ifs <;> omega
              · rw [← h]; split_ifs <;> omega
              · intro row' hrow'
                injection hrow' with hrow'
                subst hrow'
                rw [specChoice, if_neg hc0, if_neg hcw, ← h]
                simp only [getD_of_get? ha, getD_of_get? hb, getD_of_get? hc]

/-- Specification of the backtracking loop: starting from column `c` at row
`r`, it produces one entry per row `0 … r` with correct line numbers, all
columns in range, adjacent rows' columns differing by at most 1, and every
step given by the documented rule applied to the row above. -/
theorem backtrack_spec (t : CostTable)
    (hWF : ∀ row ∈ t.table, row.length = t.width) :
    ∀ (r c : ℕ) (path : List PixelCoordinates), backtrack t r c = some path →
      c < t.width →
      path.length = r + 1 ∧
      path.get? r = some ⟨r, c⟩ ∧
      (∀ q, q ≤ r → ∃ cc, path.get? q = some ⟨q, cc⟩ ∧ cc < t.width) ∧
      (∀ q, q < r → ∀ cq cq1, path.get? q = some ⟨q, cq⟩ →
        path.get? (q + 1) = some ⟨q + 1, cq1⟩ →
        (cq ≤ cq1 + 1 ∧ cq1 ≤ cq + 1) ∧
        ∀ row, t.table.get? q = some row → cq = specChoice row t.width cq1) := by
  intro r
  induction r with
  | zero =>
    intro c path h hc
    simp only [backtrack] at h
    injection h with h
    subst h
    refine ⟨rfl, rfl, ?_, ?_⟩
    · intro q hq
      obtain rfl : q = 0 := by omega
      exact ⟨c, rfl, hc⟩
    · intro q hq; omega
  | succ r ih =>
    intro c path h hc
    simp only [backtrack] at h
    cases hcol : find_optimal_pixel t (r + 1) c with
    | none => rw [hcol] at h; simp at h
    | some col =>
      rw [hcol] at h
      simp only [Option.some_bind] at h
      cases hrest : backtrack t r col with
      | none => rw [hrest] at h; simp at h
      | some rest =>
        rw [hrest] at h
        simp only [Option.some_bind] at h
        injection h with h
        subst h
        obtain ⟨hcw, hcolw, hadj1, hadj2, hchar⟩ := fop_spec t (r + 1) c col hWF hcol
        obtain ⟨ihlen, ihtop, ihall, ihstep⟩ := ih col rest hrest hcolw
        have hlast : (rest ++ [(⟨r + 1, c⟩ : PixelCoordinates)]).get? (r + 1) =
            some ⟨r + 1, c⟩ := by
          have hr : r + 1 = rest.length := by omega
          rw [hr]
          exact List.get?_concat_length rest _
        refine ⟨by simp [ihlen], hlast, ?_, ?_⟩
        · intro q hq
          rcases Nat.lt_or_ge q (r + 1) with hlt | hge
          · obtain ⟨cc, h1, h2⟩ := ihall q (by omega)
            exact ⟨cc, by rw [List.get?_append (by omega)]; exact h1, h2⟩
          · obtain rfl : q = r + 1 := by omega
            exact ⟨c, hlast, hc⟩
        · intro q hq cq cq1 h1 h2
          rcases Nat.lt_or_ge (q + 1) (r + 1) with hlt | hge
          · rw [List.get?_append (by omega)] at h1
            rw [List.get?_append (by omega)] at h2
            exact ihstep q (by omega) cq cq1 h1 h2
          · obtain rfl : q = r := by omega
            rw [List.get?_append (by omega)] at h1
            rw [ihtop] at h1
            injection h1 with h1
            have hcq : cq = col := congrArg PixelCoordinates.column h1 |>.symm
            rw [hlast] at h2
            injection h2 with h2
            have hcq1 : cq1 = c := congrArg PixelCoordinates.column h2 |>.symm
            subst hcq; subst hcq1
            refine ⟨⟨by omega, by omega⟩, ?_⟩
            intro row hrow
            exact hchar row (by simpa using hrow)

/-- C8: any groove returned by `find_optimal_groove` on a well-formed table
with at least one row has exactly one entry per row (in increasing row
order: entry `r` has line `r`), all columns within `[0, width)`, and
adjacent rows' columns differing by at most 1. -/
theorem C8_seam_invariants (t : CostTable) (g : Groove)
    (hWF : CostTable.WF t) (hh : 1 ≤ t.height)
    (h : find_optimal_groove t = some g) :
    g.path.length = t.height ∧
    (∀ r, r < t.height → ∃ c, g.path.get? r = some ⟨r, c⟩ ∧ c < t.width) ∧
    (∀ r, r + 1 < t.height → ∀ c c', g.path.get? r = some ⟨r, c⟩ →
      g.path.get? (r + 1) = some ⟨r + 1, c'⟩ → c ≤ c' + 1 ∧ c' ≤ c + 1) := by
  obtain ⟨hlen, hrows⟩ := hWF
  simp only [find_optimal_groove] at h
  rw [pred64_of_ne_zero (by omega)] at h
  cases hlr : t.table.get? (t.height - 1) with
  | none => rw [hlr] at h; simp at h
  | some lastRow =>
    rw [hlr] at h
    simp only [Option.some_bind] at h
    cases hpm : argminFirst (lastRow.take t.width) with
    | none => rw [hpm] at h; simp at h
    | some pm =>
      rw [hpm] at h
      simp only [Option.some_bind] at h
      cases hbt : backtrack t (t.height - 1) pm.1 with
      | none => rw [hbt] at h; simp at h
      | some path =>
        rw [hbt] at h
        simp only [Option.some_bind] at h
        injection h with h
        subst h
        obtain ⟨hp, hpg, hlow, hstrict⟩ := argminFirst_spec _ pm.1 pm.2 hpm
        have hpw : pm.1 < t.width := by
          have h2 : (lastRow.take t.width).length ≤ t.width := by
            simp [List.length_take]
          omega
        obtain ⟨hbl, hbtop, hball, hbstep⟩ :=
          backtrack_spec t hrows (t.height - 1) pm.1 path hbt hpw
        refine ⟨by show path.length = t.height; omega, ?_, ?_⟩
        · intro r hr
          exact hball r (by omega)
        · intro r hr c c' h1 h2
          exact (hbstep r (by omega) c c' h1 h2).1

/-- Witness for C8 on the concrete table of `imgC`. -/
theorem C8_seam_invariants_witness :
    (⟨[⟨0, 2⟩, ⟨1, 1⟩], 4⟩ : Groove).path.length = (⟨2, 3, [[1, 4, 3], [5, 4, 8]]⟩ : CostTable).height ∧
    (∀ r, r < (⟨2, 3, [[1, 4, 3], [5, 4, 8]]⟩ : CostTable).height →
      ∃ c, (⟨[⟨0, 2⟩, ⟨1, 1⟩], 4⟩ : Groove).path.get? r = some ⟨r, c⟩ ∧
        c < (⟨2, 3, [[1, 4, 3], [5, 4, 8]]⟩ : CostTable).width) ∧
    (∀ r, r + 1 < (⟨2, 3, [[1, 4, 3], [5, 4, 8]]⟩ : CostTable).height →
      ∀ c c', (⟨[⟨0, 2⟩, ⟨1, 1⟩], 4⟩ : Groove).path.get? r = some ⟨r, c⟩ →
      (⟨[⟨0, 2⟩, ⟨1, 1⟩], 4⟩ : Groove).path.get? (r + 1) = some ⟨r + 1, c'⟩ →
      c ≤ c' + 1 ∧ c' ≤ c + 1) :=
  C8_seam_invariants ⟨2, 3, [[1, 4, 3], [5, 4, 8]]⟩ ⟨[⟨0, 2⟩, ⟨1, 1⟩], 4⟩
    ⟨rfl, by decide⟩ (by decide) (by decide)

/-- C7: on a well-formed table `find_optimal_groove` (a pure, hence
deterministic, function of the table) anchors the seam at the first
(lowest-index) minimum of the last row found by a left-to-right scan, records
that minimum as the groove's cost, and each backtrack step selects the
predecessor by the documented fixed rule (`specChoice`). -/
theorem C7_find_follows_documented_rule (t : CostTable) (g : Groove)
    (hWF : CostTable.WF t) (hh : 1 ≤ t.height)
    (h : find_optimal_groove t = some g) :
    ∃ lastRow pos, t.table.get? (t.height - 1) = some lastRow ∧
      g.path.get? (t.height - 1) = some ⟨t.height - 1, pos⟩ ∧
      lastRow.get? pos = some g.cost ∧
      (∀ k v, lastRow.get? k = some v → g.cost ≤ v) ∧
      (∀ k, k < pos → ∀ v, lastRow.get? k = some v → g.cost < v) ∧
      (∀ q, q < t.height - 1 → ∀ cq cq1 row, g.path.get? q = some ⟨q, cq⟩ →
        g.path.get? (q + 1) = some ⟨q + 1, cq1⟩ → t.table.get? q = some row →
        cq = specChoice row t.width cq1) := by
  obtain ⟨hlen, hrows⟩ := hWF
  simp only [find_optimal_groove] at h
  rw [pred64_of_ne_zero (by omega)] at h
  cases hlr : t.table.get? (t.height - 1) with
  | none => rw [hlr] at h; simp at h
  | some lastRow =>
    rw [hlr] at h
    simp only [Option.some_bind] at h
    cases hpm : argminFirst (lastRow.take t.width) with
    | none => rw [hpm] at h; simp at h
    | some pm =>
      rw [hpm] at h
      simp only [Option.some_bind] at h
      cases hbt : backtrack t (t.height - 1) pm.1 with
      | none => rw [hbt] at h; simp at h
      | some path =>
        rw [hbt] at h
        simp only [Option.some_bind] at h
        injection h with h
        subst h
        have htake : lastRow.take t.width = lastRow :=
          List.take_of_length_le (by rw [hrows lastRow (List.get?_mem hlr)])
        rw [htake] at hpm
        obtain ⟨hp, hpg, hlow, hstrict⟩ := argminFirst_spec _ pm.1 pm.2 hpm
        have hpw : pm.1 < t.width := by
          have := hrows lastRow (List.get?_mem hlr)
          omega
        obtain ⟨hbl, hbtop, hball, hbstep⟩ :=
          backtrack_spec t hrows (t.height - 1) pm.1 path hbt hpw
        refine ⟨lastRow, pm.1, rfl, hbtop, hpg, hlow, hstrict, ?_⟩
        intro q hq cq cq1 row h1 h2 hrow
        exact ((hbstep q (by omega) cq cq1 h1 h2).2) row hrow

/-- Witness for C7 on the concrete table of `imgC`. -/
theorem C7_find_follows_documented_rule_witness :
    ∃ lastRow pos,
      (⟨2, 3, [[1, 4, 3], [5, 4, 8]]⟩ : CostTable).table.get? (2 - 1) = some lastRow ∧
      (⟨[⟨0, 2⟩, ⟨1, 1⟩], 4⟩ : Groove).path.get? (2 - 1) = some ⟨2 - 1, pos⟩ ∧
      lastRow.get? pos = some (⟨[⟨0, 2⟩, ⟨1, 1⟩], 4⟩ : Groove).cost ∧
      (∀ k v, lastRow.get? k = some v → (⟨[⟨0, 2⟩, ⟨1, 1⟩], 4⟩ : Groove).cost ≤ v) ∧
      (∀ k, k < pos → ∀ v, lastRow.get? k = some v →
        (⟨[⟨0, 2⟩, ⟨1, 1⟩], 4⟩ : Groove).cost < v) ∧
      (∀ q, q < 2 - 1 → ∀ cq cq1 row,
        (⟨[⟨0, 2⟩, ⟨1, 1⟩], 4⟩ : Groove).path.get? q = some ⟨q, cq⟩ →
        (⟨[⟨0, 2⟩, ⟨1, 1⟩], 4⟩ : Groove).path.get? (q + 1) = some ⟨q + 1, cq1⟩ →
        (⟨2, 3, [[1, 4, 3], [5, 4, 8]]⟩ : CostTable).table.get? q = some row →
        cq = specChoice row (⟨2, 3, [[1, 4, 3], [5, 4, 8]]⟩ : CostTable).width cq1) :=
  C7_find_follows_documented_rule ⟨2, 3, [[1, 4, 3], [5, 4, 8]]⟩ ⟨[⟨0, 2⟩, ⟨1, 1⟩], 4⟩
    ⟨rfl, by decide⟩ (by decide) (by decide)

/-- Rows of a successful phase-2 row loop: row `k` of the result is an
`updateRow` of the corresponding shifted row, at the seam column of that
row. -/
theorem updateRowsFrom_get? (image : PNMImage) (g : Groove) :
    ∀ {n : ℕ} {prev : List ℤ} {sr : List (List ℤ)} {i0 : ℕ} {rs : List (List ℤ)},
      updateRowsFrom image g prev sr i0 n = some rs →
      ∀ {k : ℕ}, k < n → ∃ prevRow shifted p r,
        sr.get? (i0 + k) = some shifted ∧
        g.path.get? (i0 + k) = some p ∧
        updateRow image prevRow shifted (i0 + k) p.column = some r ∧
        rs.get? k = some r := by
  intro n
  induction n with
  | zero => intro prev sr i0 rs h k hk; omega
  | succ n ih =>
    intro prev sr i0 rs h k hk
    simp only [updateRowsFrom] at h
    cases h1 : sr.get? i0 with
    | none => rw [h1] at h; simp at h
    | some shifted =>
      rw [h1] at h
      simp only [Option.some_bind] at h
      cases h2 : g.path.get? i0 with
      | none => rw [h2] at h; simp at h
      | some p =>
        rw [h2] at h
        simp only [Option.some_bind] at h
        cases h3 : updateRow image prev shifted i0 p.column with
        | none => rw [h3] at h; simp at h
        | some r =>
          rw [h3] at h
          simp only [Option.some_bind] at h
          cases h4 : updateRowsFrom image g r sr (i0 + 1) n with
          | none => rw [h4] at h; simp at h
          | some rest =>
            rw [h4] at h
            simp only [Option.some_bind] at h
            injection h with h
            subst h
            cases k with
            | zero =>
              exact ⟨prev, shifted, p, r, by simpa using h1, by simpa using h2,
                by simpa using h3, rfl⟩
            | succ k' =>
              obtain ⟨prevRow, shifted', p', r', hh1, hh2, hh3, hh4⟩ :=
                ih h4 (k := k') (by omega)
              refine ⟨prevRow, shifted', p', r', ?_, ?_, ?_, hh4⟩
              · rw [← hh1]; congr 1; omega
              · rw [← hh2]; congr 1; omega
              · rw [show i0 + (k' + 1) = i0 + 1 + k' by omega]; exact hh3

/-- C2 (amended): after a successful `update_cost_table`, the table width is
the old width minus one, and every cell outside the actually recomputed
region — row 0 left of the seam's first column; in a row `i ≥ 1`, columns
other than 0 and `width-1` that lie left of the seam's column for that
row — retains its post-shift value. -/
theorem C2_update_frame (image : PNMImage) (t : CostTable) (g : Groove)
    (st t' : CostTable) (p0 : PixelCoordinates)
    (hsp : shiftPhase t g = some st)
    (hupd : update_cost_table image t g = some t')
    (hp0 : g.path.get? 0 = some p0) :
    t'.width = t.width - 1 ∧
    (∀ j v, j < p0.column → st.read 0 j = some v → t'.read 0 j = some v) ∧
    (∀ i, 1 ≤ i → i < image.height → ∀ p, g.path.get? i = some p →
      ∀ j v, 1 ≤ j → j < p.column → j ≠ image.width - 1 →
        st.read i j = some v → t'.read i j = some v) := by
  simp only [update_cost_table] at hupd
  rw [hsp] at hupd
  simp only [Option.some_bind] at hupd
  cases h0 : st.table.get? 0 with
  | none => rw [h0] at hupd; simp at hupd
  | some shifted0 =>
    rw [h0] at hupd
    simp only [Option.some_bind] at hupd
    rw [hp0] at hupd
    simp only [Option.some_bind] at hupd
    cases hr0 : updateRow0 image shifted0 p0.column with
    | none => rw [hr0] at hupd; simp at hupd
    | some r0 =>
      rw [hr0] at hupd
      simp only [Option.some_bind] at hupd
      cases hrs : updateRowsFrom image g r0 st.table 1 (image.height - 1) with
      | none => rw [hrs] at hupd; simp at hupd
      | some rs =>
        rw [hrs] at hupd
        simp only [Option.some_bind] at hupd
        injection hupd with hupd
        subst hupd
        have hwidth : st.width = t.width - 1 := by
          simp only [shiftPhase] at hsp
          cases hsr : shiftRows t g 0 t.height with
          | none => rw [hsr] at hsp; simp at hsp
          | some rows =>
            rw [hsr] at hsp
            simp only [Option.some_bind] at hsp
            injection hsp with hsp
            rw [← hsp]
        refine ⟨hwidth, ?_, ?_⟩
        · intro j v hj hst
          have hjlen : j < shifted0.length := by
            simp only [CostTable.read, h0, Option.some_bind] at hst
            exact (List.get?_eq_some.mp hst).choose
          have hcell := optMap_get? (f := updateRow0Cell image shifted0 p0.column)
            hr0 (k := j) (a := j) (List.get?_range hjlen)
          have hval : updateRow0Cell image shifted0 p0.column j = some v := by
            simp only [updateRow0Cell, if_neg (by omega : ¬ (p0.column ≤ j ∧ j < image.width))]
            simp only [CostTable.read, h0, Option.some_bind] at hst
            rw [getD_of_get? hst]
          simp only [CostTable.read]
          simp only [List.get?]
          simp only [Option.some_bind]
          rw [← hcell, hval]
        · intro i hi1 hih p hp j v hj1 hjp hjw hst
          obtain ⟨prevRow, shifted, p', r, hh1, hh2, hh3, hh4⟩ :=
            updateRowsFrom_get? image g hrs (k := i - 1) (by omega)
          rw [show 1 + (i - 1) = i by omega] at hh1 hh2 hh3
          have hp' : p' = p := by
            rw [hp] at hh2
            injection hh2 with he
            exact he.symm
          rw [hp'] at hh3
          have hshift : st.read i j = some v := hst
          simp only [CostTable.read, hh1, Option.some_bind] at hshift
          have hjlen : j < shifted.length := (List.get?_eq_some.mp hshift).choose
          simp only [updateRow] at hh3
          have hcell := optMap_get? (f := updateRowCell image prevRow shifted i p.column)
            hh3 (k := j) (a := j) (List.get?_range hjlen)
          have hval : updateRowCell image prevRow shifted i p.column j = some v := by
            simp only [updateRowCell,
              if_neg (by omega : ¬ j = image.width - 1),
              if_neg (by omega : ¬ (p.column ≤ j ∧ j < image.width - 1)),
              if_neg (by omega : ¬ j = 0)]
            rw [getD_of_get? hshift]
          obtain ⟨i', rfl⟩ : ∃ i', i = i' + 1 := ⟨i - 1, by omega⟩
          simp only [CostTable.read, List.get?]
          rw [show i' + 1 - 1 = i' from rfl] at hh4
          rw [hh4]
          simp only [Option.some_bind]
          rw [← hcell, hval]

/-- Witness for C2 (amended) on the concrete `imgB` pipeline. -/
theorem C2_update_frame_witness :
    (⟨2, 4, [[5, 17, 11, 13, 19], [21, 19, 29, 15, 21]]⟩ : CostTable).width =
      (⟨2, 5, [[5, 17, 6, 10, 19], [21, 19, 14, 15, 21]]⟩ : CostTable).width - 1 ∧
    (∀ j v, j < (⟨0, 2⟩ : PixelCoordinates).column →
      CostTable.read ⟨2, 4, [[5, 17, 10, 19, 19], [21, 19, 15, 21, 21]]⟩ 0 j = some v →
      CostTable.read ⟨2, 4, [[5, 17, 11, 13, 19], [21, 19, 29, 15, 21]]⟩ 0 j = some v) ∧
    (∀ i, 1 ≤ i → i < imgB'.height → ∀ p,
      (⟨[⟨0, 2⟩, ⟨1, 2⟩], 14⟩ : Groove).path.get? i = some p →
      ∀ j v, 1 ≤ j → j < p.column → j ≠ imgB'.width - 1 →
        CostTable.read ⟨2, 4, [[5, 17, 10, 19, 19], [21, 19, 15, 21, 21]]⟩ i j = some v →
        CostTable.read ⟨2, 4, [[5, 17, 11, 13, 19], [21, 19, 29, 15, 21]]⟩ i j = some v) :=
  C2_update_frame imgB' ⟨2, 5, [[5, 17, 6, 10, 19], [21, 19, 14, 15, 21]]⟩
    ⟨[⟨0, 2⟩, ⟨1, 2⟩], 14⟩ ⟨2, 4, [[5, 17, 10, 19, 19], [21, 19, 15, 21, 21]]⟩
    ⟨2, 4, [[5, 17, 11, 13, 19], [21, 19, 29, 15, 21]]⟩ ⟨0, 2⟩ (by decide) (by decide) rfl

/-- `min_with_two_arguments` is a lower bound of both arguments and equals
one of them. -/
theorem min2_spec (a b : ℤ) :
    min_with_two_arguments a b ≤ a ∧ min_with_two_arguments a b ≤ b ∧
      (min_with_two_arguments a b = a ∨ min_with_two_arguments a b = b) := by
  simp only [min_with_two_arguments]
  split_ifs <;> refine ⟨by omega, by omega, ?_⟩ <;> [exact Or.inl rfl; exact Or.inr rfl]

/-- `min_with_three_arguments` is a lower bound of all three arguments and
equals one of them. -/
theorem min3_spec (a b c : ℤ) :
    min_with_three_arguments a b c ≤ a ∧ min_with_three_arguments a b c ≤ b ∧
      min_with_three_arguments a b c ≤ c ∧
      (min_with_three_arguments a b c = a ∨ min_with_three_arguments a b c = b ∨
        min_with_three_arguments a b c = c) := by
  simp only [min_with_three_arguments]
  split_ifs <;> refine ⟨by omega, by omega, by omega, ?_⟩
  · exact Or.inl rfl
  · exact Or.inr (Or.inl rfl)
  · exact Or.inr (Or.inr rfl)

/-- Rows of a successful `buildRowsFrom`: each result row is a `buildRow` of
the row before it (the seed row for the first one). -/
theorem buildRowsFrom_get? (image : PNMImage) :
    ∀ {n : ℕ} {prev : List ℤ} {i0 : ℕ} {rs : List (List ℤ)},
      buildRowsFrom image prev i0 n = some rs →
      ∀ {k : ℕ}, k < n → ∃ prevRow r, buildRow image prevRow (i0 + k) = some r ∧
        rs.get? k = some r ∧
        ((k = 0 ∧ prevRow = prev) ∨ (1 ≤ k ∧ rs.get? (k - 1) = some prevRow)) := by
  intro n
  induction n with
  | zero => intro prev i0 rs h k hk; omega
  | succ n ih =>
    intro prev i0 rs h k hk
    simp only [buildRowsFrom] at h
    cases h1 : buildRow image prev i0 with
    | none => rw [h1] at h; simp at h
    | some r1 =>
      rw [h1] at h
      simp only [Option.some_bind] at h
      cases h2 : buildRowsFrom image r1 (i0 + 1) n with
      | none => rw [h2] at h; simp at h
      | some rest =>
        rw [h2] at h
        simp only [Option.some_bind] at h
        injection h with h
        subst h
        cases k with
        | zero => exact ⟨prev, r1, by simpa using h1, rfl, Or.inl ⟨rfl, rfl⟩⟩
        | succ k' =>
          obtain ⟨prevRow, r, hh1, hh2, hh3⟩ := ih h2 (k := k') (by omega)
          refine ⟨prevRow, r, ?_, hh2, ?_⟩
          · rw [show i0 + (k' + 1) = i0 + 1 + k' by omega]; exact hh1
          · rcases hh3 with ⟨hk0, hpr⟩ | ⟨hk1, hpr⟩
            · subst hk0
              exact Or.inr ⟨by omega, by rw [hpr]; rfl⟩
            · refine Or.inr ⟨by omega, ?_⟩
              rw [show k' + 1 - 1 = (k' - 1) + 1 by omega]
              simpa using hpr

/-- The value of a successful row-`i ≥ 1` build cell is the pixel energy plus
the dynamic-programming candidate; moreover the reads performed pin the
previous row's length (so the width is at least 2 whenever column 0 is
built). -/
theorem buildRowCell_value (image : PNMImage) (prev : List ℤ) (i j : ℕ) (v : ℤ)
    (h : buildRowCell image prev i j = some v) :
    v = pixel_energy image i j + buildCand prev image.width j ∧
      (j = 0 → 1 < prev.length) := by
  simp only [buildRowCell] at h
  by_cases hj0 : j = 0
  · subst hj0
    rw [if_pos rfl] at h
    cases ha : prev.get? 0 with
    | none => rw [ha] at h; simp at h
    | some a =>
      rw [ha] at h
      cases hb : prev.get? 1 with
      | none => rw [hb] at h; simp at h
      | some b =>
        rw [hb] at h
        simp only [Option.some_bind] at h
        injection h with h
        constructor
        · rw [← h, buildCand, if_pos rfl, getD_of_get? ha, getD_of_get? hb]
        · intro _
          exact (List.get?_eq_some.mp hb).choose
  · rw [if_neg hj0] at h
    by_cases hjw : j = image.width - 1
    · rw [if_pos hjw] at h
      cases ha : prev.get? (image.width - 1) with
      | none => rw [ha] at h; simp at h
      | some a =>
        rw [ha] at h
        cases hb : prev.get? (image.width - 2) with
        | none => rw [hb] at h; simp at h
        | some b =>
          rw [hb] at h
          simp only [Option.some_bind] at h
          injection h with h
          refine ⟨?_, fun hc => absurd hc hj0⟩
          rw [← h, buildCand, if_neg hj0, if_pos hjw, getD_of_get? ha, getD_of_get? hb,
            hjw]
    · rw [if_neg hjw] at h
      cases ha : prev.get? j with
      | none => rw [ha] at h; simp at h
      | some a =>
        rw [ha] at h
        cases hb : prev.get? (j + 1) with
        | none => rw [hb] at h; simp at h
        | some b =>
          rw [hb] at h
          cases hc : prev.get? (j - 1) with
          | none => rw [hc] at h; simp at h
          | some c =>
            rw [hc] at h
            simp only [Option.some_bind] at h
            injection h with h
            refine ⟨?_, fun hz => absurd hz hj0⟩
            rw [← h, buildCand, if_neg hj0, if_neg hjw, getD_of_get? ha,
              getD_of_get? hb, getD_of_get? hc]

/-- `buildRowsFrom` produces exactly the requested number of rows. -/
theorem buildRowsFrom_length (image : PNMImage) :
    ∀ {n : ℕ} {prev : List ℤ} {i0 : ℕ} {rs : List (List ℤ)},
      buildRowsFrom image prev i0 n = some rs → rs.length = n := by
  intro n
  induction n with
  | zero =>
    intro prev i0 rs h
    simp only [buildRowsFrom] at h
    injection h with h
    rw [← h]; rfl
  | succ n ih =>
    intro prev i0 rs h
    simp only [buildRowsFrom] at h
    cases h1 : buildRow image prev i0 with
    | none => rw [h1] at h; simp at h
    | some r1 =>
      rw [h1] at h
      simp only [Option.some_bind] at h
      cases h2 : buildRowsFrom image r1 (i0 + 1) n with
      | none => rw [h2] at h; simp at h
      | some rest =>
        rw [h2] at h
        simp only [Option.some_bind] at h
        injection h with h
        rw [← h]
        simp [ih h2]

/-- Full characterization of a successful `compute_cost_table`: dimensions,
storage shape, the row-0 energies, and the recurrence of every later row in
terms of the row above it. -/
theorem build_spec (image : PNMImage) (t : CostTable)
    (h : compute_cost_table image = some t) :
    t.height = image.height ∧ t.width = image.width ∧
    (1 ≤ image.height → t.table.length = image.height) ∧
    (∀ i row, t.table.get? i = some row → row.length = image.width) ∧
    (∀ j, j < image.width → t.read 0 j = some (pixel_energy image 0 j)) ∧
    (∀ i, 1 ≤ i → i < image.height → ∃ prevRow, t.table.get? (i - 1) = some prevRow ∧
      ∀ j, j < image.width →
        t.read i j = some (pixel_energy image i j + buildCand prevRow image.width j)) ∧
    (2 ≤ image.height → 1 ≤ image.width → 2 ≤ image.width) := by
  simp only [compute_cost_table] at h
  cases hr0 : buildRow0 image with
  | none => rw [hr0] at h; simp at h
  | some r0 =>
    rw [hr0] at h
    simp only [Option.some_bind] at h
    cases hrs : buildRowsFrom image r0 1 (image.height - 1) with
    | none => rw [hrs] at h; simp at h
    | some rs =>
      rw [hrs] at h
      simp only [Option.some_bind] at h
      injection h with h
      subst h
      have hr0len : r0.length = image.width := by
        have := optMap_length (f := buildRow0Cell image) hr0
        simpa using this
      have hrslen : rs.length = image.height - 1 := buildRowsFrom_length image hrs
      have hrowlen : ∀ i row, (r0 :: rs : List (List ℤ)).get? i = some row →
          row.length = image.width := by
        intro i row hrow
        cases i with
        | zero =>
          simp only [List.get?] at hrow
          injection hrow with hrow
          rw [← hrow]; exact hr0len
        | succ k =>
          simp only [List.get?] at hrow
          have hk : k < image.height - 1 := by
            have := (List.get?_eq_some.mp hrow).choose
            omega
          obtain ⟨prevRow, r, hbr, hget, _⟩ := buildRowsFrom_get? image hrs hk
          rw [hget] at hrow
          injection hrow with hrow
          subst hrow
          have := optMap_length (f := buildRowCell image prevRow (1 + k)) hbr
          simpa using this
      have hrow0 : ∀ j, j < image.width →
          CostTable.read ⟨image.height, image.width, r0 :: rs⟩ 0 j =
            some (pixel_energy image 0 j) := by
        intro j hj
        have hcell := optMap_get? (f := buildRow0Cell image) hr0
          (k := j) (a := j) (List.get?_range hj)
        have hjr : j < r0.length := by omega
        have ha : r0.get? j = some (r0.get ⟨j, hjr⟩) := List.get?_eq_get hjr
        rw [ha] at hcell
        simp only [buildRow0Cell] at hcell
        by_cases he : pixel_energy image 0 j < 0
        · rw [if_pos he] at hcell
          exact absurd hcell (by simp)
        · rw [if_neg he] at hcell
          injection hcell with hcell
          simp only [CostTable.read, List.get?, Option.some_bind]
          rw [ha, hcell]
      have hrows : ∀ i, 1 ≤ i → i < image.height →
          ∃ prevRow, (r0 :: rs : List (List ℤ)).get? (i - 1) = some prevRow ∧
          ∀ j, j < image.width →
            CostTable.read ⟨image.height, image.width, r0 :: rs⟩ i j =
              some (pixel_energy image i j + buildCand prevRow image.width j) := by
        intro i hi1 hih
        have hk : i - 1 < image.height - 1 := by omega
        obtain ⟨prevRow, r, hbr, hget, hlink⟩ := buildRowsFrom_get? image hrs hk
        rw [show 1 + (i - 1) = i by omega] at hbr
        have hrlen : r.length = image.width := by
          have := optMap_length (f := buildRowCell image prevRow i) hbr
          simpa using this
        refine ⟨prevRow, ?_, ?_⟩
        · rcases hlink with ⟨hk0, hpr⟩ | ⟨hk1, hpr⟩
          · subst hpr
            rw [show i - 1 = 0 by omega]
            rfl
          · obtain ⟨k', hk'⟩ : ∃ k', i - 1 = k' + 1 := ⟨i - 1 - 1, by omega⟩
            rw [hk']
            simp only [List.get?]
            rw [← hpr]
            congr 1
            omega
        · intro j hj
          have hcell := optMap_get? (f := buildRowCell image prevRow i) hbr
            (k := j) (a := j) (List.get?_range hj)
          have hjr : j < r.length := by omega
          have hsome : r.get? j = some (r.get ⟨j, hjr⟩) := List.get?_eq_get hjr
          rw [hsome] at hcell
          obtain ⟨hv, _⟩ := buildRowCell_value image prevRow i j _ hcell
          obtain ⟨i', rfl⟩ : ∃ i', i = i' + 1 := ⟨i - 1, by omega⟩
          have hget' : rs.get? i' = some r := by simpa using hget
          simp only [CostTable.read, List.get?]
          rw [hget']
          simp only [Option.some_bind]
          rw [hsome, hv]
      refine ⟨rfl, rfl, ?_, hrowlen, hrow0, hrows, ?_⟩
      · intro hh
        simp only [List.length_cons]
        omega
      · intro hh hw
        obtain ⟨prevRow, r, hbr, hget, hlink⟩ :=
          buildRowsFrom_get? image hrs (k := 0) (by omega)
        have hprev : prevRow = r0 := by
          rcases hlink with ⟨_, hpr⟩ | ⟨hk1, _⟩
          · exact hpr
          · omega
        subst hprev
        have hrlen : r.length = image.width := by
          have := optMap_length (f := buildRowCell image prevRow (1 + 0)) hbr
          simpa using this
        have hcell := optMap_get? (f := buildRowCell image prevRow (1 + 0)) hbr
          (k := 0) (a := 0) (List.get?_range (by omega))
        have hjr : (0 : ℕ) < r.length := by omega
        have hsome : r.get? 0 = some (r.get ⟨0, hjr⟩) := List.get?_eq_get hjr
        rw [hsome] at hcell
        obtain ⟨_, hlen2⟩ := buildRowCell_value image prevRow (1 + 0) 0 _ hcell
        have := hlen2 rfl
        omega

/-- `pathCost` only depends on the columns up to the given row. -/
theorem pathCost_congr (image : PNMImage) (f g : ℕ → ℕ) :
    ∀ n, (∀ r, r ≤ n → f r = g r) → pathCost image f n = pathCost image g n := by
  intro n
  induction n with
  | zero => intro h; simp [pathCost, h 0 (le_refl 0)]
  | succ n ih =>
    intro h
    simp only [pathCost]
    rw [ih (fun r hr => h r (by omega)), h (n + 1) (le_refl _)]

/-- Lower bound: every cell of a built cost table is at most the traversed
energy of any connected seam prefix ending at that cell. -/
theorem table_le_pathCost (image : PNMImage) (t : CostTable)
    (hbuild : compute_cost_table image = some t) :
    ∀ i, i < image.height → ∀ cols : ℕ → ℕ,
      (∀ r, r ≤ i → cols r < image.width) →
      (∀ r, r + 1 ≤ i → cols (r + 1) ≤ cols r + 1 ∧ cols r ≤ cols (r + 1) + 1) →
      ∀ v, t.read i (cols i) = some v → v ≤ pathCost image cols i := by
  obtain ⟨hth, htw, hlen, hrowlen, hrow0, hrows, hw2⟩ := build_spec image t hbuild
  intro i
  induction i with
  | zero =>
    intro _ cols hb _ v hv
    rw [hrow0 (cols 0) (hb 0 (le_refl 0))] at hv
    injection hv with hv
    rw [← hv]
    simp [pathCost]
  | succ i ih =>
    intro hih cols hb ha v hv
    obtain ⟨prevRow, hprev, hcells⟩ := hrows (i + 1) (by omega) (by omega)
    rw [hcells (cols (i + 1)) (hb (i + 1) (le_refl _))] at hv
    injection hv with hv
    have hci : cols i < image.width := hb i (by omega)
    have hprev' : t.table.get? i = some prevRow := by simpa using hprev
    have hplen : prevRow.length = image.width := hrowlen _ _ hprev'
    have hlt : cols i < prevRow.length := by omega
    have hread : t.read i (cols i) = some (prevRow.getD (cols i) 0) := by
      simp only [CostTable.read]
      rw [hprev']
      simp only [Option.some_bind]
      rw [List.get?_eq_getElem?, List.getElem?_eq_getElem hlt,
        List.getD_eq_getElem _ _ hlt]
    have hu := ih (by omega) cols (fun r hr => hb r (by omega))
      (fun r hr => ha r (by omega)) _ hread
    have hadj := ha i (le_refl _)
    have hcand : buildCand prevRow image.width (cols (i + 1)) ≤
        prevRow.getD (cols i) 0 := by
      by_cases hj0 : cols (i + 1) = 0
      · rw [buildCand, if_pos hj0]
        have hc : cols i = 0 ∨ cols i = 1 := by omega
        rcases hc with h | h <;> rw [h]
        · exact (min2_spec _ _).1
        · exact (min2_spec _ _).2.1
      · by_cases hjw : cols (i + 1) = image.width - 1
        · rw [buildCand, if_neg hj0, if_pos hjw]
          have hc : cols i = image.width - 1 ∨ cols i = image.width - 2 := by omega
          rcases hc with h | h <;> rw [h]
          · exact (min2_spec _ _).1
          · exact (min2_spec _ _).2.1
        · rw [buildCand, if_neg hj0, if_neg hjw]
          have hc : cols i = cols (i + 1) ∨ cols i = cols (i + 1) + 1 ∨
              cols i = cols (i + 1) - 1 := by omega
          rcases hc with h | h | h <;> rw [h]
          · exact (min3_spec _ _ _).1
          · exact (min3_spec _ _ _).2.1
          · exact (min3_spec _ _ _).2.2.1
    simp only [pathCost]
    omega

/-- Attainment: every cell value of a built cost table is realized by some
connected seam prefix ending at that cell. -/
theorem pathCost_attains_table (image : PNMImage) (t : CostTable)
    (hbuild : compute_cost_table image = some t) :
    ∀ i, i < image.height → ∀ j, j < image.width →
      ∀ v, t.read i j = some v → ∃ cols : ℕ → ℕ,
        (∀ r, r ≤ i → cols r < image.width) ∧
        (∀ r, r + 1 ≤ i → cols (r + 1) ≤ cols r + 1 ∧ cols r ≤ cols (r + 1) + 1) ∧
        cols i = j ∧ pathCost image cols i = v := by
  obtain ⟨hth, htw, hlen, hrowlen, hrow0, hrows, hw2⟩ := build_spec image t hbuild
  intro i
  induction i with
  | zero =>
    intro _ j hj v hv
    rw [hrow0 j hj] at hv
    injection hv with hv
    exact ⟨fun _ => j, fun r _ => hj, fun r hr => by omega, rfl, by simp [pathCost, hv]⟩
  | succ i ih =>
    intro hih j hj v hv
    obtain ⟨prevRow, hprev, hcells⟩ := hrows (i + 1) (by omega) (by omega)
    rw [hcells j hj] at hv
    injection hv with hv
    have hprev' : t.table.get? i = some prevRow := by simpa using hprev
    have hplen : prevRow.length = image.width := hrowlen _ _ hprev'
    have hreadAt : ∀ j', j' < image.width → t.read i j' = some (prevRow.getD j' 0) := by
      intro j' hj'
      have hlt : j' < prevRow.length := by omega
      simp only [CostTable.read]
      rw [hprev']
      simp only [Option.some_bind]
      rw [List.get?_eq_getElem?, List.getElem?_eq_getElem hlt,
        List.getD_eq_getElem _ _ hlt]
    have hex : ∃ j', j' < image.width ∧ (j' ≤ j + 1 ∧ j ≤ j' + 1) ∧
        buildCand prevRow image.width j = prevRow.getD j' 0 := by
      by_cases hj0 : j = 0
      · have hw' : 2 ≤ image.width := hw2 (by omega) (by omega)
        rw [buildCand, if_pos hj0]
        rcases (min2_spec (prevRow.getD 0 0) (prevRow.getD 1 0)).2.2 with h | h
        · exact ⟨0, by omega, by omega, h⟩
        · exact ⟨1, by omega, by omega, h⟩
      · by_cases hjw : j = image.width - 1
        · rw [buildCand, if_neg hj0, if_pos hjw]
          rcases (min2_spec (prevRow.getD (image.width - 1) 0)
              (prevRow.getD (image.width - 2) 0)).2.2 with h | h
          · exact ⟨image.width - 1, by omega, by omega, h⟩
          · exact ⟨image.width - 2, by omega, by omega, h⟩
        · rw [buildCand, if_neg hj0, if_neg hjw]
          rcases (min3_spec (prevRow.getD j 0) (prevRow.getD (j + 1) 0)
              (prevRow.getD (j - 1) 0)).2.2.2 with h | h | h
          · exact ⟨j, by omega, by omega, h⟩
          · exact ⟨j + 1, by omega, by omega, h⟩
          · exact ⟨j - 1, by omega, by omega, h⟩
    obtain ⟨j', hj'w, hadje, hcand⟩ := hex
    obtain ⟨cols', hb', ha', hc', hp'⟩ := ih (by omega) j' hj'w _ (hreadAt j' hj'w)
    refine ⟨fun r => if r ≤ i then cols' r else j, ?_, ?_, ?_, ?_⟩
    · intro r hr
      by_cases h : r ≤ i
      · simpa [h] using hb' r h
      · simpa [h] using hj
    · intro r hr
      by_cases h : r + 1 ≤ i
      · have h2 : r ≤ i := by omega
        simpa [h, h2] using ha' r h
      · have hri : r = i := by omega
        subst hri
        simp only [le_refl, if_pos, if_neg (by omega : ¬ r + 1 ≤ r)]
        rw [hc']
        exact ⟨by omega, by omega⟩
    · simp
    · simp only [pathCost]
      have hcong : pathCost image (fun r => if r ≤ i then cols' r else j) i =
          pathCost image cols' i :=
        pathCost_congr image _ cols' i (fun r hr => by simp [hr])
      rw [hcong, hp']
      simp only [if_neg (by omega : ¬ i + 1 ≤ i)]
      rw [← hv, hcand]
      ring

/-- C3 (amended): on a table built from the image, the cost recorded by
`find_optimal_groove` is exactly the globally minimal total traversed energy
over all connected top-to-bottom seams — it is a lower bound of every seam's
energy and is attained by some seam.  (The *extracted* path need not attain
it; see the counterexample.) -/
theorem C3_recorded_cost_globally_minimal (image : PNMImage) (t : CostTable) (g : Groove)
    (hh : 1 ≤ image.height)
    (hbuild : compute_cost_table image = some t)
    (hfind : find_optimal_groove t = some g) :
    (∀ cols : ℕ → ℕ, SeamOK image.width image.height cols →
      g.cost ≤ pathCost image cols (image.height - 1)) ∧
    (∃ cols : ℕ → ℕ, SeamOK image.width image.height cols ∧
      pathCost image cols (image.height - 1) = g.cost) := by
  obtain ⟨hth, htw, hlen, hrowlen, hrow0, hrows, hw2⟩ := build_spec image t hbuild
  simp only [find_optimal_groove] at hfind
  rw [pred64_of_ne_zero (by omega)] at hfind
  cases hlr : t.table.get? (t.height - 1) with
  | none => rw [hlr] at hfind; simp at hfind
  | some lastRow =>
    rw [hlr] at hfind
    simp only [Option.some_bind] at hfind
    cases hpm : argminFirst (lastRow.take t.width) with
    | none => rw [hpm] at hfind; simp at hfind
    | some pm =>
      rw [hpm] at hfind
      simp only [Option.some_bind] at hfind
      cases hbt : backtrack t (t.height - 1) pm.1 with
      | none => rw [hbt] at hfind; simp at hfind
      | some path =>
        rw [hbt] at hfind
        simp only [Option.some_bind] at hfind
        injection hfind with hfind
        subst hfind
        have hlastlen : lastRow.length = image.width := hrowlen _ _ hlr
        have htake : lastRow.take t.width = lastRow :=
          List.take_of_length_le (by omega)
        rw [htake] at hpm
        obtain ⟨hp, hpg, hlow, hstrict⟩ := argminFirst_spec _ pm.1 pm.2 hpm
        have hreadLast : ∀ j, j < image.width →
            t.read (image.height - 1) j = some (lastRow.getD j 0) := by
          intro j hj
          have hlt : j < lastRow.length := by omega
          simp only [CostTable.read]
          rw [show (image.height - 1 : ℕ) = t.height - 1 by omega, hlr]
          simp only [Option.some_bind]
          rw [List.get?_eq_getElem?, List.getElem?_eq_getElem hlt,
            List.getD_eq_getElem _ _ hlt]
        constructor
        · intro cols hok
          obtain ⟨hokb, hoka⟩ := hok
          have hcw : cols (image.height - 1) < image.width := hokb _ (by omega)
          have hcost := table_le_pathCost image t hbuild (image.height - 1) (by omega)
            cols (fun r hr => hokb r (by omega)) (fun r hr => hoka r (by omega)) _
            (hreadLast _ hcw)
          have hlt : cols (image.height - 1) < lastRow.length := by omega
          have hle : pm.2 ≤ lastRow.getD (cols (image.height - 1)) 0 :=
            hlow _ _ (by rw [List.get?_eq_getElem?, List.getElem?_eq_getElem hlt,
              List.getD_eq_getElem _ _ hlt])
          exact le_trans hle hcost
        · have hpw : pm.1 < image.width := by omega
          have hread : t.read (image.height - 1) pm.1 = some pm.2 := by
            simp only [CostTable.read]
            rw [show (image.height - 1 : ℕ) = t.height - 1 by omega, hlr]
            simp only [Option.some_bind]
            exact hpg
          obtain ⟨cols, hb, ha, hc, hpc⟩ := pathCost_attains_table image t hbuild
            (image.height - 1) (by omega) pm.1 hpw pm.2 hread
          exact ⟨cols, ⟨fun r hr => hb r (by omega), fun r hr => ha r (by omega)⟩, hpc⟩

/-- Witness for C3 (amended) on `imgC` and its built table. -/
theorem C3_recorded_cost_globally_minimal_witness :
    (∀ cols : ℕ → ℕ, SeamOK imgC.width imgC.height cols →
      (⟨[⟨0, 2⟩, ⟨1, 1⟩], 4⟩ : Groove).cost ≤ pathCost imgC cols (imgC.height - 1)) ∧
    (∃ cols : ℕ → ℕ, SeamOK imgC.width imgC.height cols ∧
      pathCost imgC cols (imgC.height - 1) = (⟨[⟨0, 2⟩, ⟨1, 1⟩], 4⟩ : Groove).cost) :=
  C3_recorded_cost_globally_minimal imgC ⟨2, 3, [[1, 4, 3], [5, 4, 8]]⟩
    ⟨[⟨0, 2⟩, ⟨1, 1⟩], 4⟩ (by decide) (by decide) (by decide)
